import Mathlib

/-!
Shallow embedding of the CART cache from src/lib.rs (rust-cart-cache).

Modelling conventions, each justified against the source:
* The slab arena (slab::Slab) is modelled as an association list from
  tokens (natural numbers) to entries, together with a deterministic
  fresh-token chooser.  Token values are never observable through the
  public API, only their identity matters, so any fresh-token policy is
  behaviourally faithful.
* HashMap<K, Token> is modelled as an association list with
  insert-replaces semantics; iteration order is never used by the code.
* VecDeque<Token> (t1, t2) is a Lean list: front = head, push_back =
  append a singleton.
* The intrusive doubly-linked lists b1, b2 only ever see push_back,
  pop_front, remove-known-handle and len; they are modelled as lists of
  tokens (the prev/next link fields of the Rust Entry are exactly the
  representation of these two lists, so they are absorbed into the list
  model and do not appear in the Lean Entry).
* usize / u64 counters are Nat.  The source's arithmetic on them never
  overflows u64/usize for the (finite) executions considered, and the
  two usize subtractions in the code are guarded (shown by the proved
  invariants), so Nat subtraction coincides with the Rust semantics on
  every reachable state.
* Indexing the slab with an invalid token panics in Rust; the model's
  slabGet returns a default entry there.  All theorems below are about
  states where every used token is live, so the default is never hit.
* The two loops in replace_t2 / replace_t1 are modelled with explicit
  fuel by structural recursion; the top-level wrappers pass fuel that is
  an upper bound on the number of loop iterations (for replace_t2 each
  iteration pops one element of t2; for replace_t1 the measure
  2 * (number of referenced tokens in t1) + t1.length strictly
  decreases), so when the fuel runs out the queue is empty and the
  source loop would stop as well.  Fuel-insensitivity above these bounds
  is proved (replace_t2_go_fuel, replace_t1_go_fuel).
-/

namespace CartVerify

abbrev Token := Nat

/-- Cache entry, following struct Entry in src/lib.rs (the prev/next
intrusive link fields are represented by the b1/b2 token lists). -/
structure Entry (K V : Type) where
  key : K
  value : V
  is_history : Bool
  is_reference : Bool
  is_longterm : Bool
deriving DecidableEq

/-- Association-list lookup (first binding wins), used to model both the
slab arena and the key index. -/
def alookup {α β : Type} [DecidableEq α] : List (α × β) → α → Option β
  | [], _ => none
  | (a, b) :: rest, x => if a = x then some b else alookup rest x

/-- Remove the first binding of a key from an association list. -/
def aerase {α β : Type} [DecidableEq α] : List (α × β) → α → List (α × β)
  | [], _ => []
  | (a, b) :: rest, x => if a = x then rest else (a, b) :: aerase rest x

/-- Apply a function to the value bound to a key (in-place update of a
slab slot through a token). -/
def amodify {α β : Type} [DecidableEq α] : List (α × β) → α → (β → β) → List (α × β)
  | [], _, _ => []
  | (a, b) :: rest, x, f =>
      if a = x then (a, f b) :: amodify rest x f else (a, b) :: amodify rest x f

/-- Deterministic fresh token: one more than the largest token in use.
The Rust slab reuses slots; since token values are unobservable, any
fresh choice is faithful. -/
def freshToken {β : Type} (l : List (Token × β)) : Token :=
  l.foldr (fun p m => max (p.1 + 1) m) 0

/-- The cache state, following struct CartCache in src/lib.rs. -/
structure CartCache (K V : Type) where
  slab : List (Token × Entry K V)
  map : List (K × Token)
  t1 : List Token
  t2 : List Token
  b1 : List Token
  b2 : List Token
  c : Nat
  capacity : Nat
  p : Nat
  q : Nat
  shortterm_count : Nat
  longterm_count : Nat
  inserted : Nat
  evicted : Nat
deriving DecidableEq

variable {K V : Type} [DecidableEq K] [Inhabited K] [Inhabited V]

/-- Slab indexing slab[token]; a dead token panics in Rust and returns a
default entry here (never reached from the states the theorems are
about). -/
def slabGet (slab : List (Token × Entry K V)) (t : Token) : Entry K V :=
  (alookup slab t).getD ⟨default, default, false, false, false⟩

/-- The state produced by CartCache::new (before the capacity == 0
check). -/
def mkCartCache (K V : Type) (capacity : Nat) : CartCache K V :=
  { slab := [], map := [], t1 := [], t2 := [], b1 := [], b2 := []
    c := capacity / 2, capacity := capacity, p := 0, q := 0
    shortterm_count := 0, longterm_count := 0, inserted := 0, evicted := 0 }

/-- CartCache::new. -/
def CartCache.new (K V : Type) (capacity : Nat) : Except String (CartCache K V) :=
  if capacity ≤ 0 then Except.error "Cache length cannot be zero"
  else Except.ok (mkCartCache K V capacity)

/-- CartCache::capacity. -/
def CartCache.cacheCapacity (s : CartCache K V) : Nat := s.capacity

/-- CartCache::len (the key index holds resident and ghost entries). -/
def CartCache.len (s : CartCache K V) : Nat := s.map.length

/-- CartCache::frequent_len. -/
def CartCache.frequent_len (s : CartCache K V) : Nat :=
  s.longterm_count + s.b2.length

/-- CartCache::recent_len. -/
def CartCache.recent_len (s : CartCache K V) : Nat :=
  s.shortterm_count + s.b1.length

/-- CartCache::clear. -/
def CartCache.clear (s : CartCache K V) : CartCache K V :=
  { s with slab := [], map := [], t1 := [], t2 := [], b1 := [], b2 := []
           p := 0, q := 0, shortterm_count := 0, longterm_count := 0
           inserted := 0, evicted := 0 }

/-- CartCache::contains_key. -/
def CartCache.contains_key (s : CartCache K V) (key : K) : Bool :=
  (alookup s.map key).isSome

/-- CartCache::get: looks the key up in the index and, when a token is
found, sets the reference bit and returns the value.  Note the source
does not test is_history here. -/
def CartCache.get (s : CartCache K V) (key : K) : Option V × CartCache K V :=
  match alookup s.map key with
  | some token =>
      (some (slabGet s.slab token).value,
       { s with slab := amodify s.slab token (fun e => { e with is_reference := true }) })
  | none => (none, s)

/-- CartCache::get_mut: same state effect as get; the returned mutable
borrow is modelled by returning the value. -/
def CartCache.get_mut (s : CartCache K V) (key : K) : Option V × CartCache K V :=
  match alookup s.map key with
  | some token =>
      (some (slabGet s.slab token).value,
       { s with slab := amodify s.slab token (fun e => { e with is_reference := true }) })
  | none => (none, s)

/-- Loop body of CartCache::replace_t2, with explicit fuel; each
iteration pops the front of t2, so fuel = t2.length (supplied by
replace_t2) is enough: at fuel 0 the queue is empty and the source loop
would break too. -/
def replace_t2_go : Nat → CartCache K V → CartCache K V
  | 0, s => s
  | fuel + 1, s =>
    match s.t2 with
    | [] => s
    | token :: rest =>
      if (slabGet s.slab token).is_reference = true then
        let s1 : CartCache K V :=
          { s with t2 := rest
                   slab := amodify s.slab token (fun e => { e with is_reference := false })
                   t1 := s.t1 ++ [token] }
        let s2 : CartCache K V :=
          if s1.t2.length + s1.b2.length + s1.t1.length - s1.shortterm_count ≥ s1.c then
            { s1 with q := min (s1.q + 1) (s1.capacity - s1.t1.length) }
          else s1
        replace_t2_go fuel s2
      else s

/-- CartCache::replace_t2. -/
def replace_t2 (s : CartCache K V) : CartCache K V :=
  replace_t2_go s.t2.length s

/-- Number of tokens of a list whose slab entry has the reference bit
set; 2 * refCount t1 + t1.length bounds the iterations of the
replace_t1 loop. -/
def refCount (slab : List (Token × Entry K V)) (l : List Token) : Nat :=
  l.countP (fun t => (slabGet slab t).is_reference)

/-- Loop body of CartCache::replace_t1, with explicit fuel. -/
def replace_t1_go : Nat → CartCache K V → CartCache K V
  | 0, s => s
  | fuel + 1, s =>
    match s.t1 with
    | [] => s
    | token :: rest =>
      let e := slabGet s.slab token
      if e.is_longterm = true ∨ e.is_reference = true then
        if e.is_reference = true then
          let s1 : CartCache K V :=
            { s with t1 := rest ++ [token]
                     slab := amodify s.slab token (fun e => { e with is_reference := false }) }
          let s2 : CartCache K V :=
            if s1.t1.length ≥ min (s1.p + 1) s1.b1.length ∧ e.is_longterm = false then
              { s1 with slab := amodify s1.slab token (fun e2 => { e2 with is_longterm := true })
                        shortterm_count := s1.shortterm_count - 1
                        longterm_count := s1.longterm_count + 1 }
            else s1
          replace_t1_go fuel s2
        else
          let s1 : CartCache K V := { s with t1 := rest, t2 := s.t2 ++ [token] }
          let s2 : CartCache K V :=
            if s1.q > 0 then { s1 with q := max (s1.q - 1) (s1.c - s1.t1.length) }
            else { s1 with q := s1.c - s1.t1.length }
          replace_t1_go fuel s2
      else s

/-- CartCache::replace_t1. -/
def replace_t1 (s : CartCache K V) : CartCache K V :=
  replace_t1_go (2 * refCount s.slab s.t1 + s.t1.length) s

/-- CartCache::demote (the two assert! calls of the source are
statements about the state, proved below as invariants, not part of the
state transformation). -/
def demote (s : CartCache K V) : CartCache K V :=
  if s.t1.length ≥ max 1 s.p then
    match s.t1 with
    | token :: rest =>
        { s with t1 := rest
                 slab := amodify s.slab token (fun e => { e with is_history := true })
                 shortterm_count := s.shortterm_count - 1
                 b1 := s.b1 ++ [token] }
    | [] => s
  else
    match s.t2 with
    | token :: rest =>
        { s with t2 := rest
                 slab := amodify s.slab token (fun e => { e with is_history := true })
                 longterm_count := s.longterm_count - 1
                 b2 := s.b2 ++ [token] }
    | [] => s

/-- CartCache::replace. -/
def replace (s : CartCache K V) : CartCache K V :=
  demote (replace_t1 (replace_t2 s))

/-- CartCache::evict_if_full.  In the source the else-if branch carries
the condition !b2.is_empty(); when b2 is empty the first branch fires
instead (b2.is_empty() makes its disjunction true), so the branches
below are exhaustive exactly like the source. -/
def evict_if_full (s : CartCache K V) (is_history : Bool) : CartCache K V :=
  if s.t1.length + s.t2.length ≥ s.c then
    let s1 := replace s
    let s2 :=
      if is_history = false ∧ s1.b1.length + s1.b2.length ≥ s1.c + 1 then
        if s1.b1.length > max 0 s1.q ∨ s1.b2.isEmpty then
          match s1.b1 with
          | token :: rest =>
              { s1 with b1 := rest
                        map := aerase s1.map (slabGet s1.slab token).key
                        slab := aerase s1.slab token }
          | [] => s1
        else
          match s1.b2 with
          | token :: rest =>
              { s1 with b2 := rest
                        map := aerase s1.map (slabGet s1.slab token).key
                        slab := aerase s1.slab token }
          | [] => s1
      else s1
    { s2 with evicted := s2.evicted + 1 }
  else s

/-- CartCache::insert_new_entry (map insertion follows HashMap::insert,
replacing any previous binding; the caller only reaches it when the key
is absent). -/
def insert_new_entry (s : CartCache K V) (key : K) (value : V) : CartCache K V :=
  let token := freshToken s.slab
  { s with slab := s.slab ++ [(token, ⟨key, value, false, false, false⟩)]
           t1 := s.t1 ++ [token]
           shortterm_count := s.shortterm_count + 1
           map := (key, token) :: aerase s.map key
           inserted := s.inserted + 1 }

/-- CartCache::promote_from_b1. -/
def promote_from_b1 (s : CartCache K V) (token : Token) : CartCache K V :=
  { s with p := min (s.p + max 1 (s.shortterm_count / s.b1.length)) s.c
           slab := amodify s.slab token
             (fun e => { e with is_history := false, is_reference := false, is_longterm := true })
           longterm_count := s.longterm_count + 1
           b1 := s.b1.erase token
           t1 := s.t1 ++ [token] }

/-- CartCache::promote_from_b2 (the assert! that the entry is long-term
is proved below as an invariant). -/
def promote_from_b2 (s : CartCache K V) (token : Token) : CartCache K V :=
  let t := max 1 (s.longterm_count / s.b2.length)
  let s1 : CartCache K V :=
    { s with p := if s.p > t then s.p - t else 0
             slab := amodify s.slab token
               (fun e => { e with is_history := false, is_reference := false })
             longterm_count := s.longterm_count + 1
             b2 := s.b2.erase token
             t1 := s.t1 ++ [token] }
  if s1.t2.length + s1.b2.length + s1.t1.length - s1.shortterm_count ≥ s1.c then
    { s1 with q := min (s1.q + 1) (s1.capacity - s1.t1.length) }
  else s1

/-- CartCache::insert. -/
def CartCache.insert (s : CartCache K V) (key : K) (value : V) :
    Bool × CartCache K V :=
  match alookup s.map key with
  | some token =>
    let e := slabGet s.slab token
    if e.is_history = false then
      let slab' := amodify s.slab token
        (fun e => { e with is_reference := true, value := value })
      (true, { s with slab := slab' })
    else
      let s1 := evict_if_full s e.is_history
      if e.is_longterm = false then (false, promote_from_b1 s1 token)
      else (false, promote_from_b2 s1 token)
  | none =>
    let s1 := evict_if_full s false
    (false, insert_new_entry s1 key value)

/-- Public operations of the cache. -/
inductive Op (K V : Type) where
  | insert (key : K) (value : V)
  | get (key : K)
  | get_mut (key : K)
  | clear

/-- One public operation applied to a state. -/
def step (s : CartCache K V) : Op K V → CartCache K V
  | Op.insert k v => (CartCache.insert s k v).2
  | Op.get k => (CartCache.get s k).2
  | Op.get_mut k => (CartCache.get_mut s k).2
  | Op.clear => CartCache.clear s

/-- Run a sequence of public operations. -/
def run (s : CartCache K V) (ops : List (Op K V)) : CartCache K V :=
  ops.foldl step s

/-- A state is reachable at a given capacity when some finite sequence
of public operations produces it from the freshly constructed cache. -/
def Reachable (capacity : Nat) (s : CartCache K V) : Prop :=
  ∃ ops : List (Op K V), run (mkCartCache K V capacity) ops = s

/-- Resident entries of the short-term class (is_longterm unset): the
count that shortterm_count denormalizes. -/
def stCount (slab : List (Token × Entry K V)) : Nat :=
  slab.countP (fun pr => !pr.2.is_history && !pr.2.is_longterm)

/-- Resident entries of the long-term class: the count that
longterm_count denormalizes. -/
def ltCount (slab : List (Token × Entry K V)) : Nat :=
  slab.countP (fun pr => !pr.2.is_history && pr.2.is_longterm)

/-- The directory: concatenation of the four lists. -/
def CartCache.dir (s : CartCache K V) : List Token :=
  s.t1 ++ s.t2 ++ s.b1 ++ s.b2

section AssocLemmas

variable {α β : Type} [DecidableEq α]

theorem alookup_mem {l : List (α × β)} {x : α} {b : β}
    (h : alookup l x = some b) : (x, b) ∈ l := by
  induction l with
  | nil => simp [alookup] at h
  | cons hd tl ih =>
      obtain ⟨a, b'⟩ := hd
      by_cases hax : a = x
      · subst hax
        simp [alookup] at h
        subst h
        exact List.mem_cons_self _ _
      · simp only [alookup, if_neg hax] at h
        exact List.mem_cons_of_mem _ (ih h)

theorem alookup_isSome {l : List (α × β)} {x : α} :
    (alookup l x).isSome = true ↔ x ∈ l.map Prod.fst := by
  induction l with
  | nil => simp [alookup]
  | cons hd tl ih =>
      obtain ⟨a, b⟩ := hd
      by_cases hax : a = x
      · subst hax; simp [alookup]
      · simp [alookup, hax, ih, Ne.symm hax]

theorem alookup_eq_none {l : List (α × β)} {x : α} :
    alookup l x = none ↔ x ∉ l.map Prod.fst := by
  rw [← alookup_isSome (l := l) (x := x)]
  cases alookup l x <;> simp

theorem mem_alookup_nodup {l : List (α × β)} (nd : (l.map Prod.fst).Nodup)
    {x : α} {b : β} (h : (x, b) ∈ l) : alookup l x = some b := by
  induction l with
  | nil => simp at h
  | cons hd tl ih =>
      obtain ⟨a, b'⟩ := hd
      rcases List.mem_cons.mp h with hh | ht
      · cases hh
        simp [alookup]
      · have hax : a ≠ x := by
          intro hax
          subst hax
          exact (List.nodup_cons.mp nd).1
            (List.mem_map.mpr ⟨(a, b), ht, rfl⟩)
        simp only [alookup, if_neg hax]
        exact ih (List.nodup_cons.mp nd).2 ht

theorem alookup_amodify (l : List (α × β)) (x : α) (f : β → β) (y : α) :
    alookup (amodify l x f) y =
      if y = x then (alookup l y).map f else alookup l y := by
  induction l with
  | nil => by_cases hyx : y = x <;> simp [amodify, alookup, hyx]
  | cons hd tl ih =>
      obtain ⟨a, b⟩ := hd
      by_cases hax : a = x <;> by_cases hay : a = y
      · subst hax; subst hay
        simp [amodify, alookup]
      · subst hax
        simp [amodify, alookup, hay, Ne.symm hay, ih]
      · subst hay
        simp [amodify, alookup, hax, Ne.symm hax, ih]
      · simp [amodify, alookup, hax, hay, ih]

theorem amodify_map_fst (l : List (α × β)) (x : α) (f : β → β) :
    (amodify l x f).map Prod.fst = l.map Prod.fst := by
  induction l with
  | nil => rfl
  | cons hd tl ih =>
      obtain ⟨a, b⟩ := hd
      by_cases hax : a = x <;> simp [amodify, hax, ih]

theorem length_amodify (l : List (α × β)) (x : α) (f : β → β) :
    (amodify l x f).length = l.length := by
  induction l with
  | nil => rfl
  | cons hd tl ih =>
      obtain ⟨a, b⟩ := hd
      by_cases hax : a = x <;> simp [amodify, hax, ih]

theorem amodify_of_none {l : List (α × β)} {x : α} (f : β → β)
    (h : alookup l x = none) : amodify l x f = l := by
  induction l with
  | nil => rfl
  | cons hd tl ih =>
      obtain ⟨a, b⟩ := hd
      by_cases hax : a = x
      · subst hax; simp [alookup] at h
      · simp only [alookup, if_neg hax] at h
        simp [amodify, hax, ih h]

theorem aerase_sublist (l : List (α × β)) (x : α) : (aerase l x).Sublist l := by
  induction l with
  | nil => simp [aerase]
  | cons hd tl ih =>
      obtain ⟨a, b⟩ := hd
      by_cases hax : a = x
      · simp [aerase, hax]
      · simpa [aerase, hax] using ih.cons₂ (a, b)

theorem aerase_of_none {l : List (α × β)} {x : α}
    (h : alookup l x = none) : aerase l x = l := by
  induction l with
  | nil => rfl
  | cons hd tl ih =>
      obtain ⟨a, b⟩ := hd
      by_cases hax : a = x
      · subst hax; simp [alookup] at h
      · simp only [alookup, if_neg hax] at h
        simp [aerase, hax, ih h]

theorem alookup_aerase {l : List (α × β)} (nd : (l.map Prod.fst).Nodup)
    (x y : α) :
    alookup (aerase l x) y = if y = x then none else alookup l y := by
  induction l with
  | nil => by_cases hyx : y = x <;> simp [aerase, alookup, hyx]
  | cons hd tl ih =>
      obtain ⟨a, b⟩ := hd
      have nd' := (List.nodup_cons.mp nd).2
      have hna := (List.nodup_cons.mp nd).1
      by_cases hax : a = x
      · subst hax
        by_cases hya : y = a
        · subst hya
          have hnone : alookup tl y = none := alookup_eq_none.mpr hna
          simp [aerase, alookup, hnone]
        · simp [aerase, alookup, hya, Ne.symm hya]
      · by_cases hya : y = a
        · subst hya
          simp [aerase, hax, alookup, Ne.symm hax]
        · simp [aerase, hax, alookup, Ne.symm hya, ih nd']

theorem length_aerase_of_lookup {l : List (α × β)} {x : α} {b : β}
    (h : alookup l x = some b) : (aerase l x).length + 1 = l.length := by
  induction l with
  | nil => simp [alookup] at h
  | cons hd tl ih =>
      obtain ⟨a, b'⟩ := hd
      by_cases hax : a = x
      · simp [aerase, hax]
      · simp only [alookup, if_neg hax] at h
        simp [aerase, hax, ← ih h]

theorem countP_aerase {l : List (α × β)} (nd : (l.map Prod.fst).Nodup)
    {x : α} {b : β} (h : alookup l x = some b) (pred : α × β → Bool) :
    (aerase l x).countP pred + (if pred (x, b) = true then 1 else 0) =
      l.countP pred := by
  induction l with
  | nil => simp [alookup] at h
  | cons hd tl ih =>
      obtain ⟨a, b'⟩ := hd
      have nd' := (List.nodup_cons.mp nd).2
      by_cases hax : a = x
      · subst hax
        simp [alookup] at h
        subst h
        by_cases hp : pred (a, b') = true <;>
          simp [aerase, List.countP_cons, hp]
      · simp only [alookup, if_neg hax] at h
        have hrec := ih nd' h
        by_cases hp : pred (a, b') = true <;>
          by_cases hp1 : pred (x, b) = true <;>
          simp [aerase, hax, List.countP_cons, hp, hp1] at hrec ⊢ <;>
          omega

theorem countP_amodify_keep {f : β → β} (pred : α × β → Bool)
    (hf : ∀ a b, pred (a, f b) = pred (a, b)) (l : List (α × β)) (x : α) :
    (amodify l x f).countP pred = l.countP pred := by
  induction l with
  | nil => rfl
  | cons hd tl ih =>
      obtain ⟨a, b⟩ := hd
      by_cases hax : a = x <;>
        simp [amodify, hax, List.countP_cons, ih, hf]

theorem alookup_aerase_none {l : List (α × β)} {k x : α}
    (h : alookup l k = none) : alookup (aerase l x) k = none := by
  rw [alookup_eq_none] at h ⊢
  intro hm
  exact h (((aerase_sublist l x).map Prod.fst).subset hm)

theorem countP_amodify {l : List (α × β)} (nd : (l.map Prod.fst).Nodup)
    {x : α} {b : β} (h : alookup l x = some b) (f : β → β)
    (pred : α × β → Bool) :
    (amodify l x f).countP pred + (if pred (x, b) = true then 1 else 0) =
      l.countP pred + (if pred (x, f b) = true then 1 else 0) := by
  induction l with
  | nil => simp [alookup] at h
  | cons hd tl ih =>
      obtain ⟨a, b'⟩ := hd
      have nd' := (List.nodup_cons.mp nd).2
      have hna := (List.nodup_cons.mp nd).1
      by_cases hax : a = x
      · subst hax
        simp [alookup] at h
        subst h
        have hnone : alookup tl a = none := alookup_eq_none.mpr hna
        by_cases hp1 : pred (a, b') = true <;> by_cases hp2 : pred (a, f b') = true <;>
          simp [amodify, amodify_of_none f hnone, List.countP_cons, hp1, hp2] <;>
          omega
      · simp only [alookup, if_neg hax] at h
        have hrec := ih nd' h
        by_cases hp : pred (a, b') = true <;>
          by_cases hp1 : pred (x, b) = true <;>
          by_cases hp2 : pred (x, f b) = true <;>
          simp [amodify, hax, List.countP_cons, hp, hp1, hp2] at hrec ⊢ <;>
          omega

end AssocLemmas

section TokenLemmas

theorem freshToken_cons {β : Type} (a : Token) (c : β) (tl : List (Token × β)) :
    freshToken ((a, c) :: tl) = max (a + 1) (freshToken tl) := rfl

theorem lt_freshToken {β : Type} {l : List (Token × β)} {t : Token} {b : β}
    (h : (t, b) ∈ l) : t < freshToken l := by
  induction l with
  | nil => simp at h
  | cons hd tl ih =>
      obtain ⟨a, c⟩ := hd
      rw [freshToken_cons]
      rcases List.mem_cons.mp h with hh | ht
      · cases hh
        exact Nat.lt_of_lt_of_le (Nat.lt_succ_self _) (Nat.le_max_left _ _)
      · exact Nat.lt_of_lt_of_le (ih ht) (Nat.le_max_right _ _)

theorem alookup_freshToken {β : Type} (l : List (Token × β)) :
    alookup l (freshToken l) = none := by
  cases h : alookup l (freshToken l) with
  | none => rfl
  | some b => exact absurd (lt_freshToken (alookup_mem h)) (lt_irrefl _)

end TokenLemmas

section SlabGetLemmas

theorem slabGet_eq {slab : List (Token × Entry K V)} {t : Token}
    {e : Entry K V} (h : alookup slab t = some e) : slabGet slab t = e := by
  simp [slabGet, h]

theorem slabGet_amodify_ne {slab : List (Token × Entry K V)} {x y : Token}
    (f : Entry K V → Entry K V) (hne : y ≠ x) :
    slabGet (amodify slab x f) y = slabGet slab y := by
  simp [slabGet, alookup_amodify, hne]

theorem slabGet_amodify_self {slab : List (Token × Entry K V)} {x : Token}
    {e : Entry K V} (f : Entry K V → Entry K V)
    (h : alookup slab x = some e) :
    slabGet (amodify slab x f) x = f e := by
  simp [slabGet, alookup_amodify, h]

theorem refCount_append (slab : List (Token × Entry K V))
    (l1 l2 : List Token) :
    refCount slab (l1 ++ l2) = refCount slab l1 + refCount slab l2 := by
  simp [refCount, List.countP_append]

theorem refCount_cons (slab : List (Token × Entry K V)) (t : Token)
    (l : List Token) :
    refCount slab (t :: l) =
      refCount slab l + (if (slabGet slab t).is_reference = true then 1 else 0) := by
  simp [refCount, List.countP_cons]

theorem refCount_amodify_clear_le (slab : List (Token × Entry K V))
    (x : Token) (l : List Token) :
    refCount (amodify slab x (fun e => { e with is_reference := false })) l ≤
      refCount slab l := by
  apply List.countP_mono_left
  intro a _ h
  by_cases hax : a = x
  · subst hax
    cases hl : alookup slab a with
    | none => rw [amodify_of_none _ hl] at h; exact h
    | some e => rw [slabGet_amodify_self _ hl] at h; simp at h
  · rwa [slabGet_amodify_ne _ hax] at h

theorem refCount_amodify_keep {f : Entry K V → Entry K V}
    (hf : ∀ e, (f e).is_reference = e.is_reference)
    (slab : List (Token × Entry K V)) (x : Token) (l : List Token) :
    refCount (amodify slab x f) l = refCount slab l := by
  apply List.countP_congr
  intro a _
  by_cases hax : a = x
  · subst hax
    cases hl : alookup slab a with
    | none => rw [amodify_of_none _ hl]
    | some e => rw [slabGet_amodify_self _ hl, slabGet_eq hl, hf]
  · rw [slabGet_amodify_ne _ hax]

end SlabGetLemmas

/-- The structural invariant of a cache state, except for the ghost
directory bound (which is temporarily exceeded between the demotion and
the ghost trimming inside one insert). -/
structure InvCore (s : CartCache K V) : Prop where
  slab_nd : (s.slab.map Prod.fst).Nodup
  map_nd : (s.map.map Prod.fst).Nodup
  map_sound : ∀ k t, alookup s.map k = some t →
      ∃ e, alookup s.slab t = some e ∧ e.key = k
  map_complete : ∀ t e, alookup s.slab t = some e →
      alookup s.map e.key = some t
  dir_nd : s.dir.Nodup
  cover : ∀ t : Token, (alookup s.slab t).isSome = true ↔ t ∈ s.dir
  t1_ok : ∀ t ∈ s.t1, ∃ e, alookup s.slab t = some e ∧ e.is_history = false
  t2_ok : ∀ t ∈ s.t2, ∃ e, alookup s.slab t = some e ∧
      e.is_history = false ∧ e.is_longterm = true
  b1_ok : ∀ t ∈ s.b1, ∃ e, alookup s.slab t = some e ∧
      e.is_history = true ∧ e.is_longterm = false
  b2_ok : ∀ t ∈ s.b2, ∃ e, alookup s.slab t = some e ∧
      e.is_history = true ∧ e.is_longterm = true
  st_eq : s.shortterm_count = stCount s.slab
  lt_eq : s.longterm_count = ltCount s.slab
  p_le : s.p ≤ s.c
  res_bound : s.t1.length + s.t2.length ≤ max 1 s.c
  c_eq : s.c = s.capacity / 2

/-- The full invariant: the core together with the ghost directory
bound, which holds after every public operation. -/
def Inv (s : CartCache K V) : Prop :=
  InvCore s ∧ s.b1.length + s.b2.length ≤ s.c

/-- Fields of the state that the two clock sweep phases leave
untouched (with the resident total preserved rather than the individual
queues). -/
structure Frame (s s' : CartCache K V) : Prop where
  map_eq : s'.map = s.map
  b1_eq : s'.b1 = s.b1
  b2_eq : s'.b2 = s.b2
  c_eq : s'.c = s.c
  cap_eq : s'.capacity = s.capacity
  res_eq : s'.t1.length + s'.t2.length = s.t1.length + s.t2.length

theorem Frame.refl (s : CartCache K V) : Frame s s :=
  ⟨rfl, rfl, rfl, rfl, rfl, rfl⟩

theorem Frame.trans {s1 s2 s3 : CartCache K V}
    (h1 : Frame s1 s2) (h2 : Frame s2 s3) : Frame s1 s3 :=
  ⟨h2.map_eq.trans h1.map_eq, h2.b1_eq.trans h1.b1_eq, h2.b2_eq.trans h1.b2_eq,
   h2.c_eq.trans h1.c_eq, h2.cap_eq.trans h1.cap_eq, h2.res_eq.trans h1.res_eq⟩

section DisjointLemmas

theorem nodup_four {a b c d : List Token} (h : (a ++ b ++ c ++ d).Nodup) :
    (∀ x ∈ a, x ∉ b ∧ x ∉ c ∧ x ∉ d) ∧
    (∀ x ∈ b, x ∉ a ∧ x ∉ c ∧ x ∉ d) ∧
    (∀ x ∈ c, x ∉ a ∧ x ∉ b ∧ x ∉ d) ∧
    (∀ x ∈ d, x ∉ a ∧ x ∉ b ∧ x ∉ c) := by
  rw [List.append_assoc, List.append_assoc] at h
  rcases List.nodup_append.mp h with ⟨nda, h2, dA⟩
  rcases List.nodup_append.mp h2 with ⟨ndb, h3, dB⟩
  rcases List.nodup_append.mp h3 with ⟨ndc, ndd, dC⟩
  refine ⟨?_, ?_, ?_, ?_⟩ <;> intro x hx
  · exact ⟨fun hb => dA hx (by simp [hb]), fun hc2 => dA hx (by simp [hc2]),
      fun hd => dA hx (by simp [hd])⟩
  · exact ⟨fun ha => dA ha (by simp [hx]), fun hc2 => dB hx (by simp [hc2]),
      fun hd => dB hx (by simp [hd])⟩
  · exact ⟨fun ha => dA ha (by simp [hx]), fun hb => dB hb (by simp [hx]),
      fun hd => dC hx hd⟩
  · exact ⟨fun ha => dA ha (by simp [hx]), fun hb => dB hb (by simp [hx]),
      fun hc2 => dC hc2 hx⟩

end DisjointLemmas

theorem invcore_mk (K V : Type) [DecidableEq K] [Inhabited K] [Inhabited V]
    (capacity : Nat) : InvCore (mkCartCache K V capacity) := by
  refine ⟨?_, ?_, ?_, ?_, ?_, ?_, ?_, ?_, ?_, ?_, ?_, ?_, ?_, ?_, ?_⟩ <;>
    simp [mkCartCache, CartCache.dir, alookup, stCount, ltCount]

theorem invcore_clear (s : CartCache K V) (hcc : s.c = s.capacity / 2) :
    InvCore (CartCache.clear s) := by
  refine ⟨?_, ?_, ?_, ?_, ?_, ?_, ?_, ?_, ?_, ?_, ?_, ?_, ?_, ?_, ?_⟩ <;>
    simp [CartCache.clear, CartCache.dir, alookup, stCount, ltCount, hcc]

/-- Changing only the adaptive parameter q preserves the core
invariant. -/
theorem invcore_q (s : CartCache K V) (n : Nat) (hc : InvCore s) :
    InvCore { s with q := n } :=
  ⟨hc.slab_nd, hc.map_nd, hc.map_sound, hc.map_complete, hc.dir_nd, hc.cover,
   hc.t1_ok, hc.t2_ok, hc.b1_ok, hc.b2_ok, hc.st_eq, hc.lt_eq, hc.p_le,
   hc.res_bound, hc.c_eq⟩

/-- Changing only the eviction counter preserves the core invariant. -/
theorem invcore_evicted (s : CartCache K V) (n : Nat) (hc : InvCore s) :
    InvCore { s with evicted := n } :=
  ⟨hc.slab_nd, hc.map_nd, hc.map_sound, hc.map_complete, hc.dir_nd, hc.cover,
   hc.t1_ok, hc.t2_ok, hc.b1_ok, hc.b2_ok, hc.st_eq, hc.lt_eq, hc.p_le,
   hc.res_bound, hc.c_eq⟩

/-- Modifying one slab entry without touching its key, history flag or
long-term flag (for example setting or clearing the reference bit, or
overwriting the value) preserves the core invariant. -/
theorem invcore_amodify_keep (s : CartCache K V) (tok : Token)
    (f : Entry K V → Entry K V)
    (hkey : ∀ e, (f e).key = e.key)
    (hhist : ∀ e, (f e).is_history = e.is_history)
    (hlt : ∀ e, (f e).is_longterm = e.is_longterm)
    (hc : InvCore s) :
    InvCore { s with slab := amodify s.slab tok f } := by
  have hfst := amodify_map_fst s.slab tok f
  refine ⟨?_, hc.map_nd, ?_, ?_, hc.dir_nd, ?_, ?_, ?_, ?_, ?_, ?_, ?_,
    hc.p_le, hc.res_bound, hc.c_eq⟩
  · rw [hfst]; exact hc.slab_nd
  · intro k t h
    obtain ⟨e, he, hk⟩ := hc.map_sound k t h
    rw [alookup_amodify]
    by_cases htk : t = tok
    · subst htk
      rw [if_pos rfl, he]
      exact ⟨f e, rfl, by rw [hkey, hk]⟩
    · rw [if_neg htk]
      exact ⟨e, he, hk⟩
  · intro t e h
    rw [alookup_amodify] at h
    by_cases htk : t = tok
    · subst htk
      rw [if_pos rfl] at h
      cases he : alookup s.slab t with
      | none => rw [he] at h; simp at h
      | some e0 =>
          rw [he] at h
          simp at h
          have := hc.map_complete t e0 he
          rw [← h, hkey]
          exact this
    · rw [if_neg htk] at h
      exact hc.map_complete t e h
  · intro t
    have hcov := hc.cover t
    have hmap : (alookup (amodify s.slab tok f) t).isSome
        = (alookup s.slab t).isSome := by
      rw [alookup_amodify]
      by_cases htk : t = tok
      · rw [if_pos htk]
        cases alookup s.slab t <;> rfl
      · rw [if_neg htk]
    rw [hmap]
    exact hcov
  · intro t ht
    obtain ⟨e, he, hh⟩ := hc.t1_ok t ht
    by_cases htk : t = tok
    · subst htk
      refine ⟨f e, ?_, ?_⟩
      · rw [alookup_amodify, if_pos rfl, he]; rfl
      · rw [hhist]; exact hh
    · refine ⟨e, ?_, hh⟩
      rw [alookup_amodify, if_neg htk]; exact he
  · intro t ht
    obtain ⟨e, he, hh, hl⟩ := hc.t2_ok t ht
    by_cases htk : t = tok
    · subst htk
      refine ⟨f e, ?_, ?_, ?_⟩
      · rw [alookup_amodify, if_pos rfl, he]; rfl
      · rw [hhist]; exact hh
      · rw [hlt]; exact hl
    · refine ⟨e, ?_, hh, hl⟩
      rw [alookup_amodify, if_neg htk]; exact he
  · intro t ht
    obtain ⟨e, he, hh, hl⟩ := hc.b1_ok t ht
    by_cases htk : t = tok
    · subst htk
      refine ⟨f e, ?_, ?_, ?_⟩
      · rw [alookup_amodify, if_pos rfl, he]; rfl
      · rw [hhist]; exact hh
      · rw [hlt]; exact hl
    · refine ⟨e, ?_, hh, hl⟩
      rw [alookup_amodify, if_neg htk]; exact he
  · intro t ht
    obtain ⟨e, he, hh, hl⟩ := hc.b2_ok t ht
    by_cases htk : t = tok
    · subst htk
      refine ⟨f e, ?_, ?_, ?_⟩
      · rw [alookup_amodify, if_pos rfl, he]; rfl
      · rw [hhist]; exact hh
      · rw [hlt]; exact hl
    · refine ⟨e, ?_, hh, hl⟩
      rw [alookup_amodify, if_neg htk]; exact he
  · show s.shortterm_count = stCount (amodify s.slab tok f)
    rw [hc.st_eq, stCount, stCount,
      countP_amodify_keep _ (fun a b => by rw [hhist, hlt]) s.slab tok]
  · show s.longterm_count = ltCount (amodify s.slab tok f)
    rw [hc.lt_eq, ltCount, ltCount,
      countP_amodify_keep _ (fun a b => by rw [hhist, hlt]) s.slab tok]

theorem alookup_amodify_isSome {α β : Type} [DecidableEq α]
    (l : List (α × β)) (x : α) (f : β → β) (y : α) :
    (alookup (amodify l x f) y).isSome = (alookup l y).isSome := by
  rw [alookup_amodify]
  by_cases hyx : y = x
  · rw [if_pos hyx]
    cases alookup l y <;> rfl
  · rw [if_neg hyx]

theorem exists_lookup_amodify_ne {slab : List (Token × Entry K V)} {tok : Token}
    {f : Entry K V → Entry K V} {t : Token} (hne : t ≠ tok)
    {P : Entry K V → Prop} (h : ∃ e, alookup slab t = some e ∧ P e) :
    ∃ e, alookup (amodify slab tok f) t = some e ∧ P e := by
  obtain ⟨e, he, hp⟩ := h
  exact ⟨e, by rw [alookup_amodify, if_neg hne]; exact he, hp⟩

theorem exists_lookup_aerase_ne {slab : List (Token × Entry K V)}
    (nd : (slab.map Prod.fst).Nodup) {tok : Token} {t : Token} (hne : t ≠ tok)
    {P : Entry K V → Prop} (h : ∃ e, alookup slab t = some e ∧ P e) :
    ∃ e, alookup (aerase slab tok) t = some e ∧ P e := by
  obtain ⟨e, he, hp⟩ := h
  exact ⟨e, by rw [alookup_aerase nd, if_neg hne]; exact he, hp⟩

theorem amodify_map_sound {slab : List (Token × Entry K V)}
    {mp : List (K × Token)}
    (hs : ∀ k t, alookup mp k = some t → ∃ e, alookup slab t = some e ∧ e.key = k)
    (tok : Token) (f : Entry K V → Entry K V) (hkey : ∀ e, (f e).key = e.key) :
    ∀ k t, alookup mp k = some t →
      ∃ e, alookup (amodify slab tok f) t = some e ∧ e.key = k := by
  intro k t h
  obtain ⟨e, he, hk⟩ := hs k t h
  by_cases htk : t = tok
  · subst htk
    refine ⟨f e, ?_, ?_⟩
    · rw [alookup_amodify, if_pos rfl, he]; rfl
    · rw [hkey]; exact hk
  · exact ⟨e, by rw [alookup_amodify, if_neg htk]; exact he, hk⟩

theorem amodify_map_complete {slab : List (Token × Entry K V)}
    {mp : List (K × Token)}
    (hs : ∀ t e, alookup slab t = some e → alookup mp e.key = some t)
    (tok : Token) (f : Entry K V → Entry K V) (hkey : ∀ e, (f e).key = e.key) :
    ∀ t e, alookup (amodify slab tok f) t = some e → alookup mp e.key = some t := by
  intro t e h
  rw [alookup_amodify] at h
  by_cases htk : t = tok
  · rw [if_pos htk] at h
    cases he : alookup slab t with
    | none => rw [he] at h; simp at h
    | some e0 =>
        rw [he] at h
        simp at h
        rw [← h, hkey]
        exact hs t e0 he
  · rw [if_neg htk] at h
    exact hs t e h

/-- Moving the front of t2 to the tail of t1 (second chance in
replace_t2) preserves the core invariant. -/
theorem invcore_move_t2_t1 (s : CartCache K V) (tok : Token) (rest : List Token)
    (h2 : s.t2 = tok :: rest) (hc : InvCore s) :
    InvCore { s with t2 := rest, t1 := s.t1 ++ [tok] } := by
  have hdir : ({ s with t2 := rest, t1 := s.t1 ++ [tok] } : CartCache K V).dir
      = s.dir := by
    simp [CartCache.dir, h2]
  have hlen := hc.res_bound
  rw [h2] at hlen
  refine ⟨hc.slab_nd, hc.map_nd, hc.map_sound, hc.map_complete, ?_, ?_, ?_, ?_,
    hc.b1_ok, hc.b2_ok, hc.st_eq, hc.lt_eq, hc.p_le, ?_, hc.c_eq⟩
  · rw [hdir]; exact hc.dir_nd
  · intro t
    rw [hdir]
    exact hc.cover t
  · intro t ht
    rcases List.mem_append.mp ht with h | h
    · exact hc.t1_ok t h
    · obtain ⟨e, he, hh, _⟩ := hc.t2_ok t (by rw [h2]; simp at h; simp [h])
      exact ⟨e, he, hh⟩
  · intro t ht
    exact hc.t2_ok t (by rw [h2]; exact List.mem_cons_of_mem _ ht)
  · simp at hlen ⊢
    omega

/-- Rotating the front of t1 to its tail (second chance in replace_t1)
preserves the core invariant. -/
theorem invcore_rotate_t1 (s : CartCache K V) (tok : Token) (rest : List Token)
    (h1 : s.t1 = tok :: rest) (hc : InvCore s) :
    InvCore { s with t1 := rest ++ [tok] } := by
  have hperm : ({ s with t1 := rest ++ [tok] } : CartCache K V).dir.Perm s.dir := by
    simp only [CartCache.dir, h1]
    exact (((List.perm_append_singleton tok rest).append_right s.t2).append_right
      s.b1).append_right s.b2
  have hlen := hc.res_bound
  rw [h1] at hlen
  refine ⟨hc.slab_nd, hc.map_nd, hc.map_sound, hc.map_complete, ?_, ?_, ?_,
    hc.t2_ok, hc.b1_ok, hc.b2_ok, hc.st_eq, hc.lt_eq, hc.p_le, ?_, hc.c_eq⟩
  · exact hperm.nodup_iff.mpr hc.dir_nd
  · intro t
    rw [hperm.mem_iff]
    exact hc.cover t
  · intro t ht
    rcases List.mem_append.mp ht with h | h
    · exact hc.t1_ok t (by rw [h1]; exact List.mem_cons_of_mem _ h)
    · simp at h
      exact hc.t1_ok t (by rw [h1, h]; exact List.mem_cons_self _ _)
  · simp at hlen ⊢
    omega

/-- Flipping a resident short-term t1 entry to long-term (with the two
counters adjusted in the same step) preserves the core invariant. -/
theorem invcore_flip_longterm (s : CartCache K V) (tok : Token)
    (htok : tok ∈ s.t1) {e : Entry K V} (he : alookup s.slab tok = some e)
    (hlt : e.is_longterm = false) (hc : InvCore s) :
    InvCore { s with
      slab := amodify s.slab tok (fun e2 => { e2 with is_longterm := true })
      shortterm_count := s.shortterm_count - 1
      longterm_count := s.longterm_count + 1 } := by
  have hh : e.is_history = false := by
    obtain ⟨e', he', hh'⟩ := hc.t1_ok tok htok
    rw [he] at he'
    cases he'
    exact hh'
  have hdisj := nodup_four (by simpa [CartCache.dir] using hc.dir_nd)
  have hne2 : ∀ t ∈ s.t2, t ≠ tok := fun t ht h => ((hdisj.2.1 t ht).1) (h ▸ htok)
  have hneb1 : ∀ t ∈ s.b1, t ≠ tok := fun t ht h => ((hdisj.2.2.1 t ht).1) (h ▸ htok)
  have hneb2 : ∀ t ∈ s.b2, t ≠ tok := fun t ht h => ((hdisj.2.2.2 t ht).1) (h ▸ htok)
  have hmem : (tok, e) ∈ s.slab := alookup_mem he
  refine ⟨?_, hc.map_nd, ?_, ?_, hc.dir_nd, ?_, ?_, ?_, ?_, ?_, ?_, ?_, hc.p_le,
    hc.res_bound, hc.c_eq⟩
  · rw [amodify_map_fst]; exact hc.slab_nd
  · exact amodify_map_sound hc.map_sound tok _ (fun _ => rfl)
  · exact amodify_map_complete hc.map_complete tok _ (fun _ => rfl)
  · intro t
    rw [alookup_amodify_isSome]
    exact hc.cover t
  · intro t ht
    by_cases htk : t = tok
    · subst htk
      refine ⟨{ e with is_longterm := true }, ?_, hh⟩
      rw [alookup_amodify, if_pos rfl, he]; rfl
    · exact exists_lookup_amodify_ne htk (hc.t1_ok t ht)
  · intro t ht
    exact exists_lookup_amodify_ne (hne2 t ht) (hc.t2_ok t ht)
  · intro t ht
    exact exists_lookup_amodify_ne (hneb1 t ht) (hc.b1_ok t ht)
  · intro t ht
    exact exists_lookup_amodify_ne (hneb2 t ht) (hc.b2_ok t ht)
  · show s.shortterm_count - 1 = stCount _
    have hcnt := countP_amodify hc.slab_nd he
      (fun e2 => { e2 with is_longterm := true })
      (fun pr => !pr.2.is_history && !pr.2.is_longterm)
    have hpos : 0 < stCount s.slab := by
      rw [stCount, List.countP_pos]
      exact ⟨(tok, e), hmem, by simp [hh, hlt]⟩
    rw [hc.st_eq]
    simp [hh, hlt, stCount] at hcnt hpos ⊢
    omega
  · show s.longterm_count + 1 = ltCount _
    have hcnt := countP_amodify hc.slab_nd he
      (fun e2 => { e2 with is_longterm := true })
      (fun pr => !pr.2.is_history && pr.2.is_longterm)
    rw [hc.lt_eq]
    simp [hh, hlt, ltCount] at hcnt ⊢
    omega

/-- Moving the unreferenced long-term front of t1 to the tail of t2
(replace_t1) preserves the core invariant. -/
theorem invcore_move_t1_t2 (s : CartCache K V) (tok : Token) (rest : List Token)
    (h1 : s.t1 = tok :: rest)
    (hlt : ∃ e, alookup s.slab tok = some e ∧ e.is_longterm = true)
    (hc : InvCore s) :
    InvCore { s with t1 := rest, t2 := s.t2 ++ [tok] } := by
  have htok : tok ∈ s.t1 := by rw [h1]; exact List.mem_cons_self _ _
  have hperm : ({ s with t1 := rest, t2 := s.t2 ++ [tok] } : CartCache K V).dir.Perm
      s.dir := by
    rw [List.perm_iff_count]
    intro a
    simp only [CartCache.dir, h1, List.count_append, List.count_cons,
      List.count_nil]
    split_ifs <;> omega
  have hlen := hc.res_bound
  rw [h1] at hlen
  refine ⟨hc.slab_nd, hc.map_nd, hc.map_sound, hc.map_complete, ?_, ?_, ?_, ?_,
    hc.b1_ok, hc.b2_ok, hc.st_eq, hc.lt_eq, hc.p_le, ?_, hc.c_eq⟩
  · exact hperm.nodup_iff.mpr hc.dir_nd
  · intro t
    rw [hperm.mem_iff]
    exact hc.cover t
  · intro t ht
    exact hc.t1_ok t (by rw [h1]; exact List.mem_cons_of_mem _ ht)
  · intro t ht
    rcases List.mem_append.mp ht with h | h
    · exact hc.t2_ok t h
    · simp at h
      subst h
      obtain ⟨e, he, hl⟩ := hlt
      obtain ⟨e', he', hh'⟩ := hc.t1_ok t htok
      rw [he] at he'
      cases he'
      exact ⟨e, he, hh', hl⟩
  · simp at hlen ⊢
    omega

/-- Demoting the front of t1 into b1 as a ghost (history flag set,
short-term counter decremented in the same step) preserves the core
invariant. -/
theorem invcore_demote_t1 (s : CartCache K V) (tok : Token) (rest : List Token)
    (h1 : s.t1 = tok :: rest)
    (hltf : ∃ e, alookup s.slab tok = some e ∧ e.is_longterm = false)
    (hc : InvCore s) :
    InvCore { s with t1 := rest
                     slab := amodify s.slab tok (fun e => { e with is_history := true })
                     shortterm_count := s.shortterm_count - 1
                     b1 := s.b1 ++ [tok] } := by
  obtain ⟨e, he, hlt⟩ := hltf
  have htok : tok ∈ s.t1 := by rw [h1]; exact List.mem_cons_self _ _
  have hh : e.is_history = false := by
    obtain ⟨e', he', hh'⟩ := hc.t1_ok tok htok
    rw [he] at he'
    cases he'
    exact hh'
  have hdisj := nodup_four (by simpa [CartCache.dir] using hc.dir_nd)
  have hne2 : ∀ t ∈ s.t2, t ≠ tok := fun t ht h => ((hdisj.2.1 t ht).1) (h ▸ htok)
  have hneb1 : ∀ t ∈ s.b1, t ≠ tok := fun t ht h => ((hdisj.2.2.1 t ht).1) (h ▸ htok)
  have hneb2 : ∀ t ∈ s.b2, t ≠ tok := fun t ht h => ((hdisj.2.2.2 t ht).1) (h ▸ htok)
  have hne1 : ∀ t ∈ rest, t ≠ tok := by
    intro t ht h
    subst h
    have := hc.dir_nd
    simp only [CartCache.dir, h1] at this
    rcases List.nodup_append.mp (List.nodup_append.mp
      (List.nodup_append.mp this).1).1 with ⟨hnd1, _, _⟩
    exact (List.nodup_cons.mp hnd1).1 ht
  have hmem : (tok, e) ∈ s.slab := alookup_mem he
  have hperm : (({ s with t1 := rest
                          slab := amodify s.slab tok (fun e => { e with is_history := true })
                          shortterm_count := s.shortterm_count - 1
                          b1 := s.b1 ++ [tok] } : CartCache K V)).dir.Perm s.dir := by
    rw [List.perm_iff_count]
    intro a
    simp only [CartCache.dir, h1, List.count_append, List.count_cons,
      List.count_nil]
    split_ifs <;> omega
  have hlen := hc.res_bound
  rw [h1] at hlen
  refine ⟨?_, hc.map_nd, ?_, ?_, ?_, ?_, ?_, ?_, ?_, ?_, ?_, ?_, hc.p_le, ?_,
    hc.c_eq⟩
  · rw [amodify_map_fst]; exact hc.slab_nd
  · exact amodify_map_sound hc.map_sound tok _ (fun _ => rfl)
  · exact amodify_map_complete hc.map_complete tok _ (fun _ => rfl)
  · exact hperm.nodup_iff.mpr hc.dir_nd
  · intro t
    rw [hperm.mem_iff, alookup_amodify_isSome]
    exact hc.cover t
  · intro t ht
    exact exists_lookup_amodify_ne (hne1 t ht)
      (hc.t1_ok t (by rw [h1]; exact List.mem_cons_of_mem _ ht))
  · intro t ht
    exact exists_lookup_amodify_ne (hne2 t ht) (hc.t2_ok t ht)
  · intro t ht
    rcases List.mem_append.mp ht with h | h
    · exact exists_lookup_amodify_ne (hneb1 t h) (hc.b1_ok t h)
    · simp at h
      subst h
      refine ⟨{ e with is_history := true }, ?_, rfl, hlt⟩
      rw [alookup_amodify, if_pos rfl, he]; rfl
  · intro t ht
    exact exists_lookup_amodify_ne (hneb2 t ht) (hc.b2_ok t ht)
  · show s.shortterm_count - 1 = stCount _
    have hcnt := countP_amodify hc.slab_nd he
      (fun e2 => { e2 with is_history := true })
      (fun pr => !pr.2.is_history && !pr.2.is_longterm)
    have hpos : 0 < stCount s.slab := by
      rw [stCount, List.countP_pos]
      exact ⟨(tok, e), hmem, by simp [hh, hlt]⟩
    rw [hc.st_eq]
    simp [hh, hlt, stCount] at hcnt hpos ⊢
    omega
  · show s.longterm_count = ltCount _
    have hcnt := countP_amodify hc.slab_nd he
      (fun e2 => { e2 with is_history := true })
      (fun pr => !pr.2.is_history && pr.2.is_longterm)
    rw [hc.lt_eq]
    simp [hh, hlt, ltCount] at hcnt ⊢
    omega
  · show rest.length + s.t2.length ≤ max 1 s.c
    simp only [List.length_cons] at hlen
    omega

/-- Demoting the front of t2 into b2 as a ghost (history flag set,
long-term counter decremented in the same step) preserves the core
invariant. -/
theorem invcore_demote_t2 (s : CartCache K V) (tok : Token) (rest : List Token)
    (h2 : s.t2 = tok :: rest) (hc : InvCore s) :
    InvCore { s with t2 := rest
                     slab := amodify s.slab tok (fun e => { e with is_history := true })
                     longterm_count := s.longterm_count - 1
                     b2 := s.b2 ++ [tok] } := by
  have htok : tok ∈ s.t2 := by rw [h2]; exact List.mem_cons_self _ _
  obtain ⟨e, he, hh, hlt⟩ := hc.t2_ok tok htok
  have hdisj := nodup_four (by simpa [CartCache.dir] using hc.dir_nd)
  have hne1 : ∀ t ∈ s.t1, t ≠ tok := fun t ht h => ((hdisj.1 t ht).1) (h ▸ htok)
  have hneb1 : ∀ t ∈ s.b1, t ≠ tok := fun t ht h => ((hdisj.2.2.1 t ht).2.1) (h ▸ htok)
  have hneb2 : ∀ t ∈ s.b2, t ≠ tok := fun t ht h => ((hdisj.2.2.2 t ht).2.1) (h ▸ htok)
  have hne2 : ∀ t ∈ rest, t ≠ tok := by
    intro t ht h
    subst h
    have := hc.dir_nd
    simp only [CartCache.dir, h2] at this
    rcases List.nodup_append.mp (List.nodup_append.mp
      (List.nodup_append.mp this).1).1 with ⟨_, hnd2, _⟩
    exact (List.nodup_cons.mp hnd2).1 ht
  have hmem : (tok, e) ∈ s.slab := alookup_mem he
  have hperm : (({ s with t2 := rest
                          slab := amodify s.slab tok (fun e => { e with is_history := true })
                          longterm_count := s.longterm_count - 1
                          b2 := s.b2 ++ [tok] } : CartCache K V)).dir.Perm s.dir := by
    rw [List.perm_iff_count]
    intro a
    simp only [CartCache.dir, h2, List.count_append, List.count_cons,
      List.count_nil]
    split_ifs <;> omega
  have hlen := hc.res_bound
  rw [h2] at hlen
  refine ⟨?_, hc.map_nd, ?_, ?_, ?_, ?_, ?_, ?_, ?_, ?_, ?_, ?_, hc.p_le, ?_,
    hc.c_eq⟩
  · rw [amodify_map_fst]; exact hc.slab_nd
  · exact amodify_map_sound hc.map_sound tok _ (fun _ => rfl)
  · exact amodify_map_complete hc.map_complete tok _ (fun _ => rfl)
  · exact hperm.nodup_iff.mpr hc.dir_nd
  · intro t
    rw [hperm.mem_iff, alookup_amodify_isSome]
    exact hc.cover t
  · intro t ht
    exact exists_lookup_amodify_ne (hne1 t ht) (hc.t1_ok t ht)
  · intro t ht
    exact exists_lookup_amodify_ne (hne2 t ht)
      (hc.t2_ok t (by rw [h2]; exact List.mem_cons_of_mem _ ht))
  · intro t ht
    exact exists_lookup_amodify_ne (hneb1 t ht) (hc.b1_ok t ht)
  · intro t ht
    rcases List.mem_append.mp ht with h | h
    · exact exists_lookup_amodify_ne (hneb2 t h) (hc.b2_ok t h)
    · simp at h
      subst h
      refine ⟨{ e with is_history := true }, ?_, rfl, hlt⟩
      rw [alookup_amodify, if_pos rfl, he]; rfl
  · show s.shortterm_count = stCount _
    have hcnt := countP_amodify hc.slab_nd he
      (fun e2 => { e2 with is_history := true })
      (fun pr => !pr.2.is_history && !pr.2.is_longterm)
    rw [hc.st_eq]
    simp [hh, hlt, stCount] at hcnt ⊢
    omega
  · show s.longterm_count - 1 = ltCount _
    have hcnt := countP_amodify hc.slab_nd he
      (fun e2 => { e2 with is_history := true })
      (fun pr => !pr.2.is_history && pr.2.is_longterm)
    have hpos : 0 < ltCount s.slab := by
      rw [ltCount, List.countP_pos]
      exact ⟨(tok, e), hmem, by simp [hh, hlt]⟩
    rw [hc.lt_eq]
    simp [hh, hlt, ltCount] at hcnt hpos ⊢
    omega
  · show s.t1.length + rest.length ≤ max 1 s.c
    simp only [List.length_cons] at hlen
    omega

theorem alookup_append {α β : Type} [DecidableEq α] (l1 l2 : List (α × β))
    (x : α) :
    alookup (l1 ++ l2) x =
      match alookup l1 x with
      | some b => some b
      | none => alookup l2 x := by
  induction l1 with
  | nil => simp [alookup]
  | cons hd tl ih =>
      obtain ⟨a, b⟩ := hd
      by_cases hax : a = x <;> simp [alookup, hax, ih]

theorem alookup_singleton {α β : Type} [DecidableEq α] (a : α) (b : β) (x : α) :
    alookup [(a, b)] x = if a = x then some b else none := by
  simp [alookup]

/-- Trimming the front ghost of b1 out of the directory (evict_if_full)
preserves the core invariant. -/
theorem invcore_trim_b1 (s : CartCache K V) (tok : Token) (rest : List Token)
    (hb1 : s.b1 = tok :: rest) (hc : InvCore s) :
    InvCore { s with b1 := rest
                     map := aerase s.map (slabGet s.slab tok).key
                     slab := aerase s.slab tok } := by
  have htok : tok ∈ s.b1 := by rw [hb1]; exact List.mem_cons_self _ _
  obtain ⟨e, he, hh, hl⟩ := hc.b1_ok tok htok
  have hkey : (slabGet s.slab tok).key = e.key := by rw [slabGet_eq he]
  have hdisj := nodup_four (by simpa [CartCache.dir] using hc.dir_nd)
  have hn1 : tok ∉ s.t1 := (hdisj.2.2.1 tok htok).1
  have hn2 : tok ∉ s.t2 := (hdisj.2.2.1 tok htok).2.1
  have hnb2 : tok ∉ s.b2 := (hdisj.2.2.1 tok htok).2.2
  have hb1nd : s.b1.Nodup := by
    have := hc.dir_nd
    simp only [CartCache.dir] at this
    exact (List.nodup_append.mp (List.nodup_append.mp this).1).2.1
  have hnx : tok ∉ rest := by
    rw [hb1] at hb1nd
    exact (List.nodup_cons.mp hb1nd).1
  have hmaptok : alookup s.map e.key = some tok := hc.map_complete tok e he
  have hsub : (({ s with b1 := rest
                         map := aerase s.map (slabGet s.slab tok).key
                         slab := aerase s.slab tok } : CartCache K V)).dir.Sublist
      s.dir := by
    show List.Sublist (((s.t1 ++ s.t2) ++ rest) ++ s.b2)
      (((s.t1 ++ s.t2) ++ s.b1) ++ s.b2)
    rw [hb1]
    exact (((List.sublist_cons_self tok rest).append_left (s.t1 ++ s.t2)).append_right
      s.b2)
  refine ⟨?_, ?_, ?_, ?_, ?_, ?_, ?_, ?_, ?_, ?_, ?_, ?_, hc.p_le,
    hc.res_bound, hc.c_eq⟩
  · exact List.Nodup.sublist ((aerase_sublist s.slab tok).map Prod.fst) hc.slab_nd
  · exact List.Nodup.sublist ((aerase_sublist s.map _).map Prod.fst) hc.map_nd
  · intro k t h
    rw [hkey, alookup_aerase hc.map_nd] at h
    by_cases hkk : k = e.key
    · rw [if_pos hkk] at h
      cases h
    · rw [if_neg hkk] at h
      obtain ⟨e', he', hk'⟩ := hc.map_sound k t h
      have htne : t ≠ tok := by
        intro hteq
        subst hteq
        rw [he] at he'
        cases he'
        exact hkk hk'.symm
      exact ⟨e', by rw [alookup_aerase hc.slab_nd, if_neg htne]; exact he', hk'⟩
  · intro t e' h
    rw [alookup_aerase hc.slab_nd] at h
    by_cases htne : t = tok
    · rw [if_pos htne] at h
      cases h
    · rw [if_neg htne] at h
      have hmc := hc.map_complete t e' h
      have hkne : e'.key ≠ e.key := by
        intro hkeq
        rw [hkeq, hmaptok] at hmc
        cases hmc
        exact htne rfl
      rw [hkey, alookup_aerase hc.map_nd, if_neg hkne]
      exact hmc
  · exact List.Nodup.sublist hsub hc.dir_nd
  · intro t
    by_cases htne : t = tok
    · subst htne
      rw [show alookup (aerase s.slab t) t = none from by
        rw [alookup_aerase hc.slab_nd]; simp]
      simp [CartCache.dir, List.mem_append, hn1, hn2, hnx, hnb2]
    · have hcov := hc.cover t
      rw [alookup_aerase hc.slab_nd, if_neg htne, hcov]
      simp [CartCache.dir, hb1, List.mem_append, List.mem_cons, htne]
  · intro t ht
    exact exists_lookup_aerase_ne hc.slab_nd
      (fun hteq => hn1 (by rwa [hteq] at ht)) (hc.t1_ok t ht)
  · intro t ht
    exact exists_lookup_aerase_ne hc.slab_nd
      (fun hteq => hn2 (by rwa [hteq] at ht)) (hc.t2_ok t ht)
  · intro t ht
    exact exists_lookup_aerase_ne hc.slab_nd
      (fun hteq => hnx (by rwa [hteq] at ht))
      (hc.b1_ok t (by rw [hb1]; exact List.mem_cons_of_mem _ ht))
  · intro t ht
    exact exists_lookup_aerase_ne hc.slab_nd
      (fun hteq => hnb2 (by rwa [hteq] at ht)) (hc.b2_ok t ht)
  · show s.shortterm_count = stCount _
    have hcnt := countP_aerase hc.slab_nd he
      (fun pr => !pr.2.is_history && !pr.2.is_longterm)
    rw [hc.st_eq]
    simp [hh, stCount] at hcnt ⊢
    omega
  · show s.longterm_count = ltCount _
    have hcnt := countP_aerase hc.slab_nd he
      (fun pr => !pr.2.is_history && pr.2.is_longterm)
    rw [hc.lt_eq]
    simp [hh, ltCount] at hcnt ⊢
    omega

/-- Trimming the front ghost of b2 out of the directory (evict_if_full)
preserves the core invariant. -/
theorem invcore_trim_b2 (s : CartCache K V) (tok : Token) (rest : List Token)
    (hb2 : s.b2 = tok :: rest) (hc : InvCore s) :
    InvCore { s with b2 := rest
                     map := aerase s.map (slabGet s.slab tok).key
                     slab := aerase s.slab tok } := by
  have htok : tok ∈ s.b2 := by rw [hb2]; exact List.mem_cons_self _ _
  obtain ⟨e, he, hh, hl⟩ := hc.b2_ok tok htok
  have hkey : (slabGet s.slab tok).key = e.key := by rw [slabGet_eq he]
  have hdisj := nodup_four (by simpa [CartCache.dir] using hc.dir_nd)
  have hn1 : tok ∉ s.t1 := (hdisj.2.2.2 tok htok).1
  have hn2 : tok ∉ s.t2 := (hdisj.2.2.2 tok htok).2.1
  have hnb1 : tok ∉ s.b1 := (hdisj.2.2.2 tok htok).2.2
  have hb2nd : s.b2.Nodup := by
    have := hc.dir_nd
    simp only [CartCache.dir] at this
    exact (List.nodup_append.mp this).2.1
  have hnx : tok ∉ rest := by
    rw [hb2] at hb2nd
    exact (List.nodup_cons.mp hb2nd).1
  have hmaptok : alookup s.map e.key = some tok := hc.map_complete tok e he
  have hsub : (({ s with b2 := rest
                         map := aerase s.map (slabGet s.slab tok).key
                         slab := aerase s.slab tok } : CartCache K V)).dir.Sublist
      s.dir := by
    show List.Sublist (((s.t1 ++ s.t2) ++ s.b1) ++ rest)
      (((s.t1 ++ s.t2) ++ s.b1) ++ s.b2)
    rw [hb2]
    exact (List.sublist_cons_self tok rest).append_left ((s.t1 ++ s.t2) ++ s.b1)
  refine ⟨?_, ?_, ?_, ?_, ?_, ?_, ?_, ?_, ?_, ?_, ?_, ?_, hc.p_le,
    hc.res_bound, hc.c_eq⟩
  · exact List.Nodup.sublist ((aerase_sublist s.slab tok).map Prod.fst) hc.slab_nd
  · exact List.Nodup.sublist ((aerase_sublist s.map _).map Prod.fst) hc.map_nd
  · intro k t h
    rw [hkey, alookup_aerase hc.map_nd] at h
    by_cases hkk : k = e.key
    · rw [if_pos hkk] at h
      cases h
    · rw [if_neg hkk] at h
      obtain ⟨e', he', hk'⟩ := hc.map_sound k t h
      have htne : t ≠ tok := by
        intro hteq
        subst hteq
        rw [he] at he'
        cases he'
        exact hkk hk'.symm
      exact ⟨e', by rw [alookup_aerase hc.slab_nd, if_neg htne]; exact he', hk'⟩
  · intro t e' h
    rw [alookup_aerase hc.slab_nd] at h
    by_cases htne : t = tok
    · rw [if_pos htne] at h
      cases h
    · rw [if_neg htne] at h
      have hmc := hc.map_complete t e' h
      have hkne : e'.key ≠ e.key := by
        intro hkeq
        rw [hkeq, hmaptok] at hmc
        cases hmc
        exact htne rfl
      rw [hkey, alookup_aerase hc.map_nd, if_neg hkne]
      exact hmc
  · exact List.Nodup.sublist hsub hc.dir_nd
  · intro t
    by_cases htne : t = tok
    · subst htne
      rw [show alookup (aerase s.slab t) t = none from by
        rw [alookup_aerase hc.slab_nd]; simp]
      simp [CartCache.dir, List.mem_append, hn1, hn2, hnx, hnb1]
    · have hcov := hc.cover t
      rw [alookup_aerase hc.slab_nd, if_neg htne, hcov]
      simp [CartCache.dir, hb2, List.mem_append, List.mem_cons, htne]
  · intro t ht
    exact exists_lookup_aerase_ne hc.slab_nd
      (fun hteq => hn1 (by rwa [hteq] at ht)) (hc.t1_ok t ht)
  · intro t ht
    exact exists_lookup_aerase_ne hc.slab_nd
      (fun hteq => hn2 (by rwa [hteq] at ht)) (hc.t2_ok t ht)
  · intro t ht
    exact exists_lookup_aerase_ne hc.slab_nd
      (fun hteq => hnb1 (by rwa [hteq] at ht)) (hc.b1_ok t ht)
  · intro t ht
    exact exists_lookup_aerase_ne hc.slab_nd
      (fun hteq => hnx (by rwa [hteq] at ht))
      (hc.b2_ok t (by rw [hb2]; exact List.mem_cons_of_mem _ ht))
  · show s.shortterm_count = stCount _
    have hcnt := countP_aerase hc.slab_nd he
      (fun pr => !pr.2.is_history && !pr.2.is_longterm)
    rw [hc.st_eq]
    simp [hh, stCount] at hcnt ⊢
    omega
  · show s.longterm_count = ltCount _
    have hcnt := countP_aerase hc.slab_nd he
      (fun pr => !pr.2.is_history && pr.2.is_longterm)
    rw [hc.lt_eq]
    simp [hh, ltCount] at hcnt ⊢
    omega

theorem replace_t2_go_nil (fuel : Nat) (s : CartCache K V) (h : s.t2 = []) :
    replace_t2_go fuel s = s := by
  cases fuel with
  | zero => rfl
  | succ fuel => simp only [replace_t2_go, h]

theorem replace_t1_go_nil (fuel : Nat) (s : CartCache K V) (h : s.t1 = []) :
    replace_t1_go fuel s = s := by
  cases fuel with
  | zero => rfl
  | succ fuel => simp only [replace_t1_go, h]

/-- One sweep of the replace_t2 loop preserves the core invariant and
the t2-phase frame. -/
theorem replace_t2_go_spec : ∀ (fuel : Nat) (s : CartCache K V), InvCore s →
    InvCore (replace_t2_go fuel s) ∧ Frame s (replace_t2_go fuel s) := by
  intro fuel
  induction fuel with
  | zero => intro s hc; exact ⟨hc, Frame.refl s⟩
  | succ fuel ih =>
      intro s hc
      cases h2 : s.t2 with
      | nil =>
          rw [replace_t2_go_nil _ _ h2]
          exact ⟨hc, Frame.refl s⟩
      | cons tok rest =>
          by_cases href : (slabGet s.slab tok).is_reference = true
          · have hcA : InvCore { s with
                t2 := rest
                slab := amodify s.slab tok (fun e => { e with is_reference := false })
                t1 := s.t1 ++ [tok] } := by
              have h0 : InvCore { s with
                  slab := amodify s.slab tok (fun e => { e with is_reference := false }) } :=
                invcore_amodify_keep s tok _ (fun _ => rfl) (fun _ => rfl)
                  (fun _ => rfl) hc
              exact invcore_move_t2_t1
                { s with slab := amodify s.slab tok (fun e => { e with is_reference := false }) }
                tok rest h2 h0
            have hres : (s.t1 ++ [tok]).length + rest.length
                = s.t1.length + s.t2.length := by
              rw [h2]
              simp
              omega
            simp only [replace_t2_go, h2, if_pos href]
            split
            · obtain ⟨hcr, hfr⟩ := ih _ (invcore_q _ _ hcA)
              refine ⟨hcr, hfr.map_eq, hfr.b1_eq, hfr.b2_eq, hfr.c_eq,
                hfr.cap_eq, ?_⟩
              rw [hfr.res_eq]
              exact hres
            · obtain ⟨hcr, hfr⟩ := ih _ hcA
              refine ⟨hcr, hfr.map_eq, hfr.b1_eq, hfr.b2_eq, hfr.c_eq,
                hfr.cap_eq, ?_⟩
              rw [hfr.res_eq]
              exact hres
          · simp only [replace_t2_go, h2, if_neg href]
            exact ⟨hc, Frame.refl s⟩

/-- One sweep of the replace_t1 loop, run with enough fuel, preserves
the core invariant and the t1-phase frame, and stops with an
unreferenced short-term entry at the front of t1 (the eviction victim)
whenever t1 is non-empty. -/
theorem replace_t1_go_spec : ∀ (fuel : Nat) (s : CartCache K V),
    2 * refCount s.slab s.t1 + s.t1.length ≤ fuel → InvCore s →
    InvCore (replace_t1_go fuel s) ∧ Frame s (replace_t1_go fuel s) ∧
    (∀ tok rest, (replace_t1_go fuel s).t1 = tok :: rest →
      ∃ e, alookup (replace_t1_go fuel s).slab tok = some e ∧
        e.is_longterm = false ∧ e.is_reference = false) := by
  intro fuel
  induction fuel with
  | zero =>
      intro s hf hc
      have h1 : s.t1 = [] := by
        cases h : s.t1 with
        | nil => rfl
        | cons a l =>
            rw [h] at hf
            simp [List.length_cons] at hf
      refine ⟨hc, Frame.refl s, ?_⟩
      intro tok rest h
      rw [show replace_t1_go (K := K) (V := V) 0 s = s from rfl, h1] at h
      cases h
  | succ fuel ih =>
      intro s hf hc
      cases h1 : s.t1 with
      | nil =>
          rw [replace_t1_go_nil _ _ h1]
          refine ⟨hc, Frame.refl s, ?_⟩
          intro tok rest h
          rw [h1] at h
          cases h
      | cons tok rest =>
          have htokmem : tok ∈ s.t1 := by rw [h1]; exact List.mem_cons_self _ _
          obtain ⟨e, he, hh⟩ := hc.t1_ok tok htokmem
          have hse : slabGet s.slab tok = e := slabGet_eq he
          rw [h1] at hf
          have hrc : refCount s.slab (tok :: rest)
              = refCount s.slab rest
                + (if (slabGet s.slab tok).is_reference = true then 1 else 0) :=
            refCount_cons s.slab tok rest
          by_cases hguard : (slabGet s.slab tok).is_longterm = true ∨
              (slabGet s.slab tok).is_reference = true
          · by_cases href : (slabGet s.slab tok).is_reference = true
            · -- referenced front: clear the bit and rotate, maybe flip
              have hc0 : InvCore { s with
                  slab := amodify s.slab tok (fun e => { e with is_reference := false }) } :=
                invcore_amodify_keep s tok _ (fun _ => rfl) (fun _ => rfl)
                  (fun _ => rfl) hc
              have hc1 : InvCore { s with
                  t1 := rest ++ [tok]
                  slab := amodify s.slab tok (fun e => { e with is_reference := false }) } :=
                invcore_rotate_t1
                  { s with slab := amodify s.slab tok (fun e => { e with is_reference := false }) }
                  tok rest h1 hc0
              have he1 : alookup (amodify s.slab tok
                    (fun e => { e with is_reference := false })) tok
                  = some { e with is_reference := false } := by
                rw [alookup_amodify, if_pos rfl, he]; rfl
              have hfuel0 : refCount (amodify s.slab tok
                    (fun e => { e with is_reference := false })) (rest ++ [tok])
                  ≤ refCount s.slab rest := by
                rw [refCount_append]
                have h01 := refCount_amodify_clear_le s.slab tok rest
                have h02 : refCount (amodify s.slab tok
                    (fun e => { e with is_reference := false })) [tok] = 0 := by
                  rw [refCount_cons, refCount, List.countP_nil,
                    slabGet_amodify_self _ he]
                  simp
                omega
              have hres : (rest ++ [tok]).length + s.t2.length
                  = s.t1.length + s.t2.length := by
                rw [h1]
                simp
              simp only [replace_t1_go, h1, if_pos hguard, if_pos href]
              split
              · -- short-term entry earns the long-term flag
                rename_i hcond
                have hltfalse : ({ e with is_reference := false } :
                    Entry K V).is_longterm = false := by
                  have := hcond.2
                  rw [hse] at this
                  exact this
                have hc2 := invcore_flip_longterm
                  { s with t1 := rest ++ [tok]
                           slab := amodify s.slab tok (fun e => { e with is_reference := false }) }
                  tok (by simp) he1 hltfalse hc1
                have hfuel2 : 2 * refCount (amodify (amodify s.slab tok
                      (fun e => { e with is_reference := false })) tok
                      (fun e2 => { e2 with is_longterm := true }))
                      (rest ++ [tok]) + (rest ++ [tok]).length ≤ fuel := by
                  rw [refCount_amodify_keep
                    (f := fun e2 => { e2 with is_longterm := true }) (fun _ => rfl)]
                  rw [hrc, if_pos href] at hf
                  simp only [List.length_append, List.length_cons,
                    List.length_nil] at hf ⊢
                  omega
                obtain ⟨hcr, hfr, hpost⟩ := ih _ hfuel2 hc2
                refine ⟨hcr, ⟨hfr.map_eq, hfr.b1_eq, hfr.b2_eq, hfr.c_eq,
                  hfr.cap_eq, ?_⟩, hpost⟩
                rw [hfr.res_eq]
                exact hres
              · have hfuel2 : 2 * refCount (amodify s.slab tok
                      (fun e => { e with is_reference := false }))
                      (rest ++ [tok]) + (rest ++ [tok]).length ≤ fuel := by
                  rw [hrc, if_pos href] at hf
                  simp only [List.length_append, List.length_cons,
                    List.length_nil] at hf ⊢
                  omega
                obtain ⟨hcr, hfr, hpost⟩ := ih _ hfuel2 hc1
                refine ⟨hcr, ⟨hfr.map_eq, hfr.b1_eq, hfr.b2_eq, hfr.c_eq,
                  hfr.cap_eq, ?_⟩, hpost⟩
                rw [hfr.res_eq]
                exact hres
            · -- unreferenced long-term front: move it to t2
              have hlt : (slabGet s.slab tok).is_longterm = true := by
                rcases hguard with h | h
                · exact h
                · exact absurd h href
              have hc1 : InvCore { s with t1 := rest, t2 := s.t2 ++ [tok] } :=
                invcore_move_t1_t2 s tok rest h1 ⟨e, he, by rwa [hse] at hlt⟩ hc
              have hfuel1 : 2 * refCount s.slab rest + rest.length ≤ fuel := by
                rw [hrc, if_neg href] at hf
                simp only [List.length_cons] at hf
                omega
              have hres : rest.length + (s.t2 ++ [tok]).length
                  = s.t1.length + s.t2.length := by
                rw [h1]
                simp
                omega
              simp only [replace_t1_go, h1, if_pos hguard, if_neg href]
              split
              · obtain ⟨hcr, hfr, hpost⟩ := ih _ hfuel1 (invcore_q _ _ hc1)
                refine ⟨hcr, ⟨hfr.map_eq, hfr.b1_eq, hfr.b2_eq, hfr.c_eq,
                  hfr.cap_eq, ?_⟩, hpost⟩
                rw [hfr.res_eq]
                exact hres
              · obtain ⟨hcr, hfr, hpost⟩ := ih _ hfuel1 (invcore_q _ _ hc1)
                refine ⟨hcr, ⟨hfr.map_eq, hfr.b1_eq, hfr.b2_eq, hfr.c_eq,
                  hfr.cap_eq, ?_⟩, hpost⟩
                rw [hfr.res_eq]
                exact hres
          · -- unreferenced short-term front: the victim, loop stops
            simp only [replace_t1_go, h1, if_neg hguard]
            push_neg at hguard
            simp only [Bool.not_eq_true] at hguard
            refine ⟨hc, Frame.refl s, ?_⟩
            intro tok' rest' h
            injection h with ha hb
            subst ha
            exact ⟨e, he, by rw [← hse]; exact hguard.1,
              by rw [← hse]; exact hguard.2⟩

/-- The replace_t2 sweep is insensitive to the exact fuel as long as it
is at least the length of t2: the loop pops one element of t2 per
iteration, so it always stops before such a fuel runs out. -/
theorem replace_t2_go_fuel : ∀ (f1 f2 : Nat) (s : CartCache K V),
    s.t2.length ≤ f1 → s.t2.length ≤ f2 →
    replace_t2_go f1 s = replace_t2_go f2 s := by
  intro f1
  induction f1 with
  | zero =>
      intro f2 s hf1 hf2
      have h2 : s.t2 = [] := by
        cases h : s.t2 with
        | nil => rfl
        | cons a l => rw [h] at hf1; simp at hf1
      rw [replace_t2_go_nil _ _ h2, replace_t2_go_nil _ _ h2]
  | succ f1 ih =>
      intro f2 s hf1 hf2
      cases h2 : s.t2 with
      | nil => rw [replace_t2_go_nil _ _ h2, replace_t2_go_nil _ _ h2]
      | cons tok rest =>
          rw [h2] at hf1 hf2
          simp only [List.length_cons] at hf1 hf2
          cases f2 with
          | zero => omega
          | succ f2 =>
              by_cases href : (slabGet s.slab tok).is_reference = true
              · simp only [replace_t2_go, h2, if_pos href]
                split
                · exact ih f2 _ (by show rest.length ≤ f1; omega)
                    (by show rest.length ≤ f2; omega)
                · exact ih f2 _ (by show rest.length ≤ f1; omega)
                    (by show rest.length ≤ f2; omega)
              · simp only [replace_t2_go, h2, if_neg href]

/-- The replace_t1 sweep is insensitive to the exact fuel as long as it
is at least 2 * (number of referenced tokens in t1) + t1.length: that
measure strictly decreases with every iteration, so the loop always
stops before such a fuel runs out. -/
theorem replace_t1_go_fuel : ∀ (f1 f2 : Nat) (s : CartCache K V),
    2 * refCount s.slab s.t1 + s.t1.length ≤ f1 →
    2 * refCount s.slab s.t1 + s.t1.length ≤ f2 →
    replace_t1_go f1 s = replace_t1_go f2 s := by
  intro f1
  induction f1 with
  | zero =>
      intro f2 s hf1 hf2
      have h1 : s.t1 = [] := by
        cases h : s.t1 with
        | nil => rfl
        | cons a l => rw [h] at hf1; simp [List.length_cons] at hf1
      rw [replace_t1_go_nil _ _ h1, replace_t1_go_nil _ _ h1]
  | succ f1 ih =>
      intro f2 s hf1 hf2
      cases h1 : s.t1 with
      | nil => rw [replace_t1_go_nil _ _ h1, replace_t1_go_nil _ _ h1]
      | cons tok rest =>
          rw [h1] at hf1 hf2
          have hrc : refCount s.slab (tok :: rest)
              = refCount s.slab rest
                + (if (slabGet s.slab tok).is_reference = true then 1 else 0) :=
            refCount_cons s.slab tok rest
          simp only [List.length_cons] at hf1 hf2
          cases f2 with
          | zero => omega
          | succ f2 =>
              by_cases hguard : (slabGet s.slab tok).is_longterm = true ∨
                  (slabGet s.slab tok).is_reference = true
              · by_cases href : (slabGet s.slab tok).is_reference = true
                · cases hlk : alookup s.slab tok with
                  | none =>
                      rw [show slabGet s.slab tok
                          = ⟨default, default, false, false, false⟩ from by
                        simp [slabGet, hlk]] at href
                      cases href
                  | some e =>
                      have hfuel0 : refCount (amodify s.slab tok
                            (fun e => { e with is_reference := false }))
                            (rest ++ [tok])
                          ≤ refCount s.slab rest := by
                        rw [refCount_append]
                        have h01 := refCount_amodify_clear_le s.slab tok rest
                        have h02 : refCount (amodify s.slab tok
                            (fun e => { e with is_reference := false }))
                            [tok] = 0 := by
                          rw [refCount_cons, refCount, List.countP_nil,
                            slabGet_amodify_self _ hlk]
                          simp
                        omega
                      rw [hrc, if_pos href] at hf1 hf2
                      simp only [replace_t1_go, h1, if_pos hguard, if_pos href]
                      split
                      · have hkeep : refCount (amodify (amodify s.slab tok
                              (fun e => { e with is_reference := false })) tok
                              (fun e2 => { e2 with is_longterm := true }))
                              (rest ++ [tok])
                            = refCount (amodify s.slab tok
                              (fun e => { e with is_reference := false }))
                              (rest ++ [tok]) :=
                          refCount_amodify_keep
                            (f := fun e2 => { e2 with is_longterm := true })
                            (fun _ => rfl) _ tok _
                        refine ih f2 _ ?_ ?_ <;>
                          · show 2 * refCount _ (rest ++ [tok])
                                + (rest ++ [tok]).length ≤ _
                            rw [hkeep]
                            simp only [List.length_append, List.length_cons,
                              List.length_nil]
                            omega
                      · refine ih f2 _ ?_ ?_ <;>
                          · show 2 * refCount _ (rest ++ [tok])
                                + (rest ++ [tok]).length ≤ _
                            simp only [List.length_append, List.length_cons,
                              List.length_nil]
                            omega
                · rw [hrc, if_neg href] at hf1 hf2
                  simp only [replace_t1_go, h1, if_pos hguard, if_neg href]
                  split
                  · exact ih f2 _
                      (by show 2 * refCount s.slab rest + rest.length ≤ f1
                          omega)
                      (by show 2 * refCount s.slab rest + rest.length ≤ f2
                          omega)
                  · exact ih f2 _
                      (by show 2 * refCount s.slab rest + rest.length ≤ f1
                          omega)
                      (by show 2 * refCount s.slab rest + rest.length ≤ f2
                          omega)
              · simp only [replace_t1_go, h1, if_neg hguard]

/-- What one replacement (clock sweep plus demotion) guarantees: the
core invariant, untouched key index and parameters, ghost lists only
extended at the tail, a conserved directory total, and exactly one
resident demoted whenever the resident set was at least c and
non-empty. -/
structure ReplaceOut (s s' : CartCache K V) : Prop where
  core : InvCore s'
  map_eq : s'.map = s.map
  c_eq : s'.c = s.c
  cap_eq : s'.capacity = s.capacity
  b1_ext : ∃ l, s'.b1 = s.b1 ++ l
  b2_ext : ∃ l, s'.b2 = s.b2 ++ l
  total_eq : s'.t1.length + s'.t2.length + s'.b1.length + s'.b2.length
      = s.t1.length + s.t2.length + s.b1.length + s.b2.length
  res_le : s'.t1.length + s'.t2.length ≤ s.t1.length + s.t2.length
  res_ge : s.t1.length + s.t2.length ≤ s'.t1.length + s'.t2.length + 1
  pops : s.c ≤ s.t1.length + s.t2.length → 1 ≤ s.t1.length + s.t2.length →
      s'.t1.length + s'.t2.length + 1 = s.t1.length + s.t2.length

theorem demote_spec (s : CartCache K V) (hc : InvCore s)
    (hfront : ∀ tok rest, s.t1 = tok :: rest →
      ∃ e, alookup s.slab tok = some e ∧ e.is_longterm = false) :
    ReplaceOut s (demote s) := by
  by_cases hcond : s.t1.length ≥ max 1 s.p
  · cases h1 : s.t1 with
    | nil =>
        exfalso
        rw [h1] at hcond
        simp at hcond
    | cons tok rest =>
        rw [h1] at hcond
        simp only [demote, h1, if_pos hcond]
        refine ⟨invcore_demote_t1 s tok rest h1 (hfront tok rest h1) hc,
          rfl, rfl, rfl, ⟨[tok], rfl⟩, ⟨[], by simp⟩, ?_, ?_, ?_, ?_⟩
        · show rest.length + s.t2.length + (s.b1 ++ [tok]).length + s.b2.length
            = s.t1.length + s.t2.length + s.b1.length + s.b2.length
          rw [h1]
          simp only [List.length_append, List.length_cons, List.length_nil]
          omega
        · show rest.length + s.t2.length ≤ s.t1.length + s.t2.length
          rw [h1]
          simp only [List.length_cons]
          omega
        · show s.t1.length + s.t2.length ≤ rest.length + s.t2.length + 1
          rw [h1]
          simp only [List.length_cons]
          omega
        · intro _ _
          show rest.length + s.t2.length + 1 = s.t1.length + s.t2.length
          rw [h1]
          simp only [List.length_cons]
          omega
  · cases h2 : s.t2 with
    | cons tok rest =>
        simp only [demote, h2, if_neg hcond]
        refine ⟨invcore_demote_t2 s tok rest h2 hc,
          rfl, rfl, rfl, ⟨[], by simp⟩, ⟨[tok], rfl⟩, ?_, ?_, ?_, ?_⟩
        · show s.t1.length + rest.length + s.b1.length + (s.b2 ++ [tok]).length
            = s.t1.length + s.t2.length + s.b1.length + s.b2.length
          rw [h2]
          simp only [List.length_append, List.length_cons, List.length_nil]
          omega
        · show s.t1.length + rest.length ≤ s.t1.length + s.t2.length
          rw [h2]
          simp only [List.length_cons]
          omega
        · show s.t1.length + s.t2.length ≤ s.t1.length + rest.length + 1
          rw [h2]
          simp only [List.length_cons]
          omega
        · intro _ _
          show s.t1.length + rest.length + 1 = s.t1.length + s.t2.length
          rw [h2]
          simp only [List.length_cons]
          omega
    | nil =>
        have hd : demote s = s := by simp only [demote, if_neg hcond, h2]
        rw [hd]
        refine ⟨hc, rfl, rfl, rfl, ⟨[], by simp⟩, ⟨[], by simp⟩, rfl,
          Nat.le_refl _, Nat.le_succ _, ?_⟩
        intro hge h1le
        exfalso
        rw [h2] at hge h1le
        simp at hge h1le
        exact hcond (Nat.max_le.mpr ⟨h1le, Nat.le_trans hc.p_le hge⟩)

theorem replace_spec (s : CartCache K V) (hc : InvCore s) :
    ReplaceOut s (replace s) := by
  obtain ⟨hc2, hf2⟩ := replace_t2_go_spec s.t2.length s hc
  obtain ⟨hc1, hf1, hpost⟩ := replace_t1_go_spec
    (2 * refCount (replace_t2 s).slab (replace_t2 s).t1 + (replace_t2 s).t1.length)
    (replace_t2 s) (Nat.le_refl _) hc2
  have hd := demote_spec (replace_t1 (replace_t2 s)) hc1
    (fun tok rest h => (hpost tok rest h).imp
      (fun e he => ⟨he.1, he.2.1⟩))
  have hb1a : (replace_t1 (replace_t2 s)).b1 = s.b1 :=
    hf1.b1_eq.trans hf2.b1_eq
  have hb2a : (replace_t1 (replace_t2 s)).b2 = s.b2 :=
    hf1.b2_eq.trans hf2.b2_eq
  have hresa : (replace_t1 (replace_t2 s)).t1.length
      + (replace_t1 (replace_t2 s)).t2.length
      = s.t1.length + s.t2.length := hf1.res_eq.trans hf2.res_eq
  show ReplaceOut s (demote (replace_t1 (replace_t2 s)))
  refine ⟨hd.core, hd.map_eq.trans (hf1.map_eq.trans hf2.map_eq),
    hd.c_eq.trans (hf1.c_eq.trans hf2.c_eq),
    hd.cap_eq.trans (hf1.cap_eq.trans hf2.cap_eq), ?_, ?_, ?_, ?_, ?_, ?_⟩
  · obtain ⟨l, hl⟩ := hd.b1_ext
    exact ⟨l, by rw [hl, hb1a]⟩
  · obtain ⟨l, hl⟩ := hd.b2_ext
    exact ⟨l, by rw [hl, hb2a]⟩
  · have := hd.total_eq
    rw [hb1a, hb2a, hresa] at this
    omega
  · exact hd.res_le.trans (Nat.le_of_eq hresa)
  · have := hd.res_ge
    rw [hresa] at this
    omega
  · intro hge h1le
    have hcx : (replace_t1 (replace_t2 s)).c = s.c := hf1.c_eq.trans hf2.c_eq
    have := hd.pops (by rw [hcx, hresa]; exact hge) (by rw [hresa]; exact h1le)
    rw [hresa] at this
    exact this

/-- What one call of evict_if_full guarantees: the core invariant, room
for one more resident entry, the ghost directory back under c when the
call is for a brand-new key, ghosts only appended when the call is for a
ghost key, and no key resurrected in the index. -/
structure EvictOut (s s' : CartCache K V) (flag : Bool) : Prop where
  core : InvCore s'
  c_eq : s'.c = s.c
  cap_eq : s'.capacity = s.capacity
  res_lt : s'.t1.length + s'.t2.length < max 1 s.c
  ghost_new : flag = false → s'.b1.length + s'.b2.length ≤ s.c
  ghost_old : flag = true →
      s'.b1.length + s'.b2.length ≤ s.b1.length + s.b2.length + 1
      ∧ (∃ l, s'.b1 = s.b1 ++ l) ∧ (∃ l, s'.b2 = s.b2 ++ l)
  absent : ∀ k, alookup s.map k = none → alookup s'.map k = none

theorem evict_spec (s : CartCache K V) (flag : Bool) (h : Inv s) :
    EvictOut s (evict_if_full s flag) flag := by
  obtain ⟨hc, hg⟩ := h
  by_cases hfull : s.t1.length + s.t2.length ≥ s.c
  case neg =>
    have he : evict_if_full s flag = s := by
      simp only [evict_if_full, if_neg hfull]
    rw [he]
    have hmx := Nat.le_max_right 1 s.c
    refine ⟨hc, rfl, rfl, by omega, fun _ => hg,
      fun _ => ⟨Nat.le_succ _, ⟨[], by simp⟩, ⟨[], by simp⟩⟩, fun k hk => hk⟩
  case pos =>
    have hrep := replace_spec s hc
    have hres1 : (replace s).t1.length + (replace s).t2.length < max 1 s.c := by
      have hb := hc.res_bound
      have hr := hrep.res_le
      have h1m := Nat.le_max_left 1 s.c
      by_cases h0 : 1 ≤ s.t1.length + s.t2.length
      · have := hrep.pops hfull h0
        omega
      · omega
    have hghost1 : (replace s).b1.length + (replace s).b2.length
        ≤ s.b1.length + s.b2.length + 1 := by
      have ht := hrep.total_eq
      have hr := hrep.res_ge
      omega
    simp only [evict_if_full, if_pos hfull]
    split
    · -- new-key call with the ghost directory over its bound: trim one
      rename_i hcond
      obtain ⟨hflag0, hge⟩ := hcond
      split
      · -- prefer trimming b1
        rename_i hsel
        split
        · -- b1 front exists
          rename_i tok rest hb1
          have hb1len : (replace s).b1.length = rest.length + 1 := by
            rw [hb1]
            simp
          refine ⟨invcore_evicted _ _
              (invcore_trim_b1 (replace s) tok rest hb1 hrep.core),
            hrep.c_eq, hrep.cap_eq, hres1, ?_, ?_, ?_⟩
          · intro _
            show rest.length + (replace s).b2.length ≤ s.c
            omega
          · intro hflag
            rw [hflag] at hflag0
            cases hflag0
          · intro k hk
            show alookup (aerase (replace s).map _) k = none
            rw [hrep.map_eq]
            exact alookup_aerase_none hk
        · -- b1 is empty: then b2 was empty too and the guard is absurd
          rename_i hb1
          exfalso
          have hb1len : (replace s).b1.length = 0 := by rw [hb1]; simp
          rcases hsel with hgt | hemp
          · omega
          · have : (replace s).b2.length = 0 := by
              rw [List.isEmpty_iff] at hemp
              rw [hemp]
              rfl
            have hcx := hrep.c_eq
            omega
      · -- otherwise trim b2
        rename_i hsel
        split
        · rename_i tok rest hb2
          have hb2len : (replace s).b2.length = rest.length + 1 := by
            rw [hb2]
            simp
          refine ⟨invcore_evicted _ _
              (invcore_trim_b2 (replace s) tok rest hb2 hrep.core),
            hrep.c_eq, hrep.cap_eq, hres1, ?_, ?_, ?_⟩
          · intro _
            show (replace s).b1.length + rest.length ≤ s.c
            omega
          · intro hflag
            rw [hflag] at hflag0
            cases hflag0
          · intro k hk
            show alookup (aerase (replace s).map _) k = none
            rw [hrep.map_eq]
            exact alookup_aerase_none hk
        · rename_i hb2
          exfalso
          push_neg at hsel
          have : (replace s).b2.isEmpty = true := by
            rw [hb2]
            rfl
          exact absurd this (by simpa using hsel.2)
    · -- ghost directory within bounds: no trim
      rename_i hcond
      refine ⟨invcore_evicted _ _ hrep.core, hrep.c_eq, hrep.cap_eq, hres1,
        ?_, ?_, ?_⟩
      · intro hflag0
        push_neg at hcond
        have := hcond hflag0
        have hcx := hrep.c_eq
        show (replace s).b1.length + (replace s).b2.length ≤ s.c
        omega
      · intro _
        exact ⟨hghost1, hrep.b1_ext, hrep.b2_ext⟩
      · intro k hk
        show alookup (replace s).map k = none
        rw [hrep.map_eq]
        exact hk

theorem alookup_append_some {α β : Type} [DecidableEq α]
    {l1 l2 : List (α × β)} {x : α} {b : β} (h : alookup l1 x = some b) :
    alookup (l1 ++ l2) x = some b := by
  rw [alookup_append, h]

theorem alookup_append_none {α β : Type} [DecidableEq α]
    {l1 l2 : List (α × β)} {x : α} (h : alookup l1 x = none) :
    alookup (l1 ++ l2) x = alookup l2 x := by
  rw [alookup_append, h]

/-- Inserting a brand-new key as a fresh short-term resident at the
tail of t1 preserves the core invariant (given room in the resident
set), without touching the ghost lists. -/
theorem insert_new_spec (s : CartCache K V) (key : K) (value : V)
    (hc : InvCore s) (habs : alookup s.map key = none)
    (hroom : s.t1.length + s.t2.length < max 1 s.c) :
    InvCore (insert_new_entry s key value) ∧
    (insert_new_entry s key value).b1 = s.b1 ∧
    (insert_new_entry s key value).b2 = s.b2 ∧
    (insert_new_entry s key value).c = s.c ∧
    (insert_new_entry s key value).capacity = s.capacity := by
  have hfresh : alookup s.slab (freshToken s.slab) = none :=
    alookup_freshToken s.slab
  have htknotin : freshToken s.slab ∉ s.slab.map Prod.fst :=
    alookup_eq_none.mp hfresh
  have hknotin : key ∉ s.map.map Prod.fst := alookup_eq_none.mp habs
  have hnotdir : freshToken s.slab ∉ s.dir := by
    intro hmem
    have h2 := (hc.cover _).mpr hmem
    rw [hfresh] at h2
    cases h2
  rw [show insert_new_entry s key value = { s with
      slab := s.slab ++ [(freshToken s.slab, ⟨key, value, false, false, false⟩)]
      t1 := s.t1 ++ [freshToken s.slab]
      shortterm_count := s.shortterm_count + 1
      map := (key, freshToken s.slab) :: aerase s.map key
      inserted := s.inserted + 1 } from rfl, aerase_of_none habs]
  have hperm : ({ s with
      slab := s.slab ++ [(freshToken s.slab, ⟨key, value, false, false, false⟩)]
      t1 := s.t1 ++ [freshToken s.slab]
      shortterm_count := s.shortterm_count + 1
      map := (key, freshToken s.slab) :: s.map
      inserted := s.inserted + 1 } : CartCache K V).dir.Perm
      (freshToken s.slab :: s.dir) := by
    rw [List.perm_iff_count]
    intro a
    simp only [CartCache.dir, List.count_append, List.count_cons,
      List.count_nil]
    split_ifs <;> omega
  refine ⟨⟨?_, ?_, ?_, ?_, ?_, ?_, ?_, ?_, ?_, ?_, ?_, ?_, hc.p_le, ?_,
    hc.c_eq⟩, rfl, rfl, rfl, rfl⟩
  · show ((s.slab ++ [(freshToken s.slab, _)]).map Prod.fst).Nodup
    rw [List.map_append]
    refine List.Nodup.append hc.slab_nd (by simp) ?_
    intro x hx1 hx2
    simp at hx2
    subst hx2
    exact htknotin hx1
  · show (((key, freshToken s.slab) :: s.map).map Prod.fst).Nodup
    simp only [List.map_cons]
    exact List.nodup_cons.mpr ⟨hknotin, hc.map_nd⟩
  · intro k t h
    simp only [alookup] at h
    by_cases hkk : key = k
    · rw [if_pos hkk] at h
      cases h
      refine ⟨⟨key, value, false, false, false⟩, ?_, hkk⟩
      rw [alookup_append_none hfresh, alookup_singleton, if_pos rfl]
    · rw [if_neg hkk] at h
      obtain ⟨e, he, hk⟩ := hc.map_sound k t h
      exact ⟨e, alookup_append_some he, hk⟩
  · intro t e h
    rw [alookup_append] at h
    show alookup ((key, freshToken s.slab) :: s.map) e.key = some t
    cases h0 : alookup s.slab t with
    | some e0 =>
        rw [h0] at h
        injection h with heq
        rw [← heq]
        have hmc := hc.map_complete t e0 h0
        have hkne : key ≠ e0.key := by
          intro hkeq
          rw [← hkeq, habs] at hmc
          cases hmc
        simp only [alookup, if_neg hkne]
        exact hmc
    | none =>
        rw [h0, alookup_singleton] at h
        by_cases htk : freshToken s.slab = t
        · rw [if_pos htk] at h
          cases h
          subst htk
          simp [alookup]
        · rw [if_neg htk] at h
          cases h
  · exact hperm.nodup_iff.mpr (List.nodup_cons.mpr ⟨hnotdir, hc.dir_nd⟩)
  · intro t
    rw [hperm.mem_iff]
    show (alookup (s.slab ++ [(freshToken s.slab,
        (⟨key, value, false, false, false⟩ : Entry K V))]) t).isSome = true ↔
      t ∈ freshToken s.slab :: s.dir
    by_cases htk : t = freshToken s.slab
    · subst htk
      rw [alookup_append_none hfresh, alookup_singleton, if_pos rfl]
      simp
    · rw [alookup_append]
      cases h0 : alookup s.slab t with
      | some e0 =>
          have hmem := (hc.cover t).mp (by rw [h0]; rfl)
          simp [hmem, List.mem_cons]
      | none =>
          rw [alookup_singleton, if_neg (fun h2 => htk h2.symm)]
          have hcov := hc.cover t
          rw [h0] at hcov
          simp only [List.mem_cons]
          constructor
          · intro h2
            cases h2
          · intro h2
            rcases h2 with h2 | h2
            · exact absurd h2 htk
            · exact absurd (hcov.mpr h2) (by simp)
  · intro t ht
    rcases List.mem_append.mp ht with h | h
    · obtain ⟨e, he, hh⟩ := hc.t1_ok t h
      exact ⟨e, alookup_append_some he, hh⟩
    · simp at h
      subst h
      exact ⟨⟨key, value, false, false, false⟩,
        by rw [alookup_append_none hfresh, alookup_singleton, if_pos rfl], rfl⟩
  · intro t ht
    obtain ⟨e, he, hh, hl⟩ := hc.t2_ok t ht
    exact ⟨e, alookup_append_some he, hh, hl⟩
  · intro t ht
    obtain ⟨e, he, hh, hl⟩ := hc.b1_ok t ht
    exact ⟨e, alookup_append_some he, hh, hl⟩
  · intro t ht
    obtain ⟨e, he, hh, hl⟩ := hc.b2_ok t ht
    exact ⟨e, alookup_append_some he, hh, hl⟩
  · show s.shortterm_count + 1 = stCount (s.slab ++ [(freshToken s.slab, _)])
    rw [stCount, List.countP_append, hc.st_eq]
    rfl
  · show s.longterm_count = ltCount (s.slab ++ [(freshToken s.slab, _)])
    rw [ltCount, List.countP_append, hc.lt_eq]
    rfl
  · show (s.t1 ++ [freshToken s.slab]).length + s.t2.length ≤ max 1 s.c
    simp only [List.length_append, List.length_cons, List.length_nil]
    omega

/-- Promoting a b1 ghost back to residency at the tail of t1 (history
cleared, long-term set, long-term counter incremented, p adapted
upward) preserves the core invariant. -/
theorem promote_b1_spec (s : CartCache K V) (tok : Token) (hc : InvCore s)
    (htok : tok ∈ s.b1)
    (hroom : s.t1.length + s.t2.length < max 1 s.c) :
    InvCore (promote_from_b1 s tok) ∧
    (promote_from_b1 s tok).b1.length + 1 = s.b1.length ∧
    (promote_from_b1 s tok).b2 = s.b2 ∧
    (promote_from_b1 s tok).c = s.c ∧
    (promote_from_b1 s tok).capacity = s.capacity ∧
    (promote_from_b1 s tok).map = s.map := by
  obtain ⟨e, he, hh, hl⟩ := hc.b1_ok tok htok
  have hdisj := nodup_four (by simpa [CartCache.dir] using hc.dir_nd)
  have hn1 : tok ∉ s.t1 := (hdisj.2.2.1 tok htok).1
  have hn2 : tok ∉ s.t2 := (hdisj.2.2.1 tok htok).2.1
  have hnb2 : tok ∉ s.b2 := (hdisj.2.2.1 tok htok).2.2
  have hb1nd : s.b1.Nodup := by
    have hdn := hc.dir_nd
    simp only [CartCache.dir] at hdn
    exact (List.nodup_append.mp (List.nodup_append.mp hdn).1).2.1
  obtain ⟨u, w, hu, hb1eq, herase⟩ := List.exists_erase_eq htok
  have hnw : tok ∉ w := by
    rw [hb1eq] at hb1nd
    have := (List.nodup_append.mp hb1nd).2.1
    exact (List.nodup_cons.mp this).1
  have hne_erase : ∀ t ∈ s.b1.erase tok, t ≠ tok := by
    intro t ht hteq
    subst hteq
    rw [herase] at ht
    rcases List.mem_append.mp ht with h2 | h2
    · exact hu h2
    · exact hnw h2
  have hlen : (s.b1.erase tok).length + 1 = s.b1.length :=
    List.length_erase_add_one htok
  rw [show promote_from_b1 s tok = { s with
      p := min (s.p + max 1 (s.shortterm_count / s.b1.length)) s.c
      slab := amodify s.slab tok (fun e => { e with is_history := false
                                                    is_reference := false
                                                    is_longterm := true })
      longterm_count := s.longterm_count + 1
      b1 := s.b1.erase tok
      t1 := s.t1 ++ [tok] } from rfl]
  have hperm : ({ s with
      p := min (s.p + max 1 (s.shortterm_count / s.b1.length)) s.c
      slab := amodify s.slab tok (fun e => { e with is_history := false
                                                    is_reference := false
                                                    is_longterm := true })
      longterm_count := s.longterm_count + 1
      b1 := s.b1.erase tok
      t1 := s.t1 ++ [tok] } : CartCache K V).dir.Perm s.dir := by
    rw [List.perm_iff_count]
    intro a
    simp only [CartCache.dir, herase]
    simp only [hb1eq, List.count_append, List.count_cons, List.count_nil]
    split_ifs <;> omega
  refine ⟨⟨?_, hc.map_nd, ?_, ?_, ?_, ?_, ?_, ?_, ?_, ?_, ?_, ?_, ?_, ?_,
    hc.c_eq⟩, hlen, rfl, rfl, rfl, rfl⟩
  · show ((amodify s.slab tok _).map Prod.fst).Nodup
    rw [amodify_map_fst]
    exact hc.slab_nd
  · exact amodify_map_sound hc.map_sound tok _ (fun _ => rfl)
  · exact amodify_map_complete hc.map_complete tok _ (fun _ => rfl)
  · exact hperm.nodup_iff.mpr hc.dir_nd
  · intro t
    rw [hperm.mem_iff]
    show (alookup (amodify s.slab tok _) t).isSome = true ↔ t ∈ s.dir
    rw [alookup_amodify_isSome]
    exact hc.cover t
  · intro t ht
    rcases List.mem_append.mp ht with h2 | h2
    · exact exists_lookup_amodify_ne (fun hteq => hn1 (by rwa [hteq] at h2))
        (hc.t1_ok t h2)
    · simp at h2
      subst h2
      refine ⟨{ e with is_history := false
                       is_reference := false
                       is_longterm := true }, ?_, rfl⟩
      rw [alookup_amodify, if_pos rfl, he]
      rfl
  · intro t ht
    exact exists_lookup_amodify_ne (fun hteq => hn2 (by rwa [hteq] at ht))
      (hc.t2_ok t ht)
  · intro t ht
    exact exists_lookup_amodify_ne (hne_erase t ht)
      (hc.b1_ok t (List.mem_of_mem_erase ht))
  · intro t ht
    exact exists_lookup_amodify_ne (fun hteq => hnb2 (by rwa [hteq] at ht))
      (hc.b2_ok t ht)
  · show s.shortterm_count = stCount _
    have hcnt := countP_amodify hc.slab_nd he
      (fun e => { e with is_history := false, is_reference := false, is_longterm := true })
      (fun pr => !pr.2.is_history && !pr.2.is_longterm)
    rw [hc.st_eq]
    simp [hh, hl, stCount] at hcnt ⊢
    omega
  · show s.longterm_count + 1 = ltCount _
    have hcnt := countP_amodify hc.slab_nd he
      (fun e => { e with is_history := false, is_reference := false, is_longterm := true })
      (fun pr => !pr.2.is_history && pr.2.is_longterm)
    rw [hc.lt_eq]
    simp [hh, hl, ltCount] at hcnt ⊢
    omega
  · show min (s.p + max 1 (s.shortterm_count / s.b1.length)) s.c ≤ s.c
    exact Nat.min_le_right _ _
  · show (s.t1 ++ [tok]).length + s.t2.length ≤ max 1 s.c
    simp only [List.length_append, List.length_cons, List.length_nil]
    omega

/-- Promoting a b2 ghost back to residency at the tail of t1 (history
cleared, long-term flag kept, long-term counter incremented, p adapted
downward, q possibly bumped) preserves the core invariant. -/
theorem promote_b2_spec (s : CartCache K V) (tok : Token) (hc : InvCore s)
    (htok : tok ∈ s.b2)
    (hroom : s.t1.length + s.t2.length < max 1 s.c) :
    InvCore (promote_from_b2 s tok) ∧
    (promote_from_b2 s tok).b2.length + 1 = s.b2.length ∧
    (promote_from_b2 s tok).b1 = s.b1 ∧
    (promote_from_b2 s tok).c = s.c ∧
    (promote_from_b2 s tok).capacity = s.capacity ∧
    (promote_from_b2 s tok).map = s.map := by
  obtain ⟨e, he, hh, hl⟩ := hc.b2_ok tok htok
  have hdisj := nodup_four (by simpa [CartCache.dir] using hc.dir_nd)
  have hn1 : tok ∉ s.t1 := (hdisj.2.2.2 tok htok).1
  have hn2 : tok ∉ s.t2 := (hdisj.2.2.2 tok htok).2.1
  have hnb1 : tok ∉ s.b1 := (hdisj.2.2.2 tok htok).2.2
  have hb2nd : s.b2.Nodup := by
    have hdn := hc.dir_nd
    simp only [CartCache.dir] at hdn
    exact (List.nodup_append.mp hdn).2.1
  obtain ⟨u, w, hu, hb2eq, herase⟩ := List.exists_erase_eq htok
  have hnw : tok ∉ w := by
    rw [hb2eq] at hb2nd
    have := (List.nodup_append.mp hb2nd).2.1
    exact (List.nodup_cons.mp this).1
  have hne_erase : ∀ t ∈ s.b2.erase tok, t ≠ tok := by
    intro t ht hteq
    subst hteq
    rw [herase] at ht
    rcases List.mem_append.mp ht with h2 | h2
    · exact hu h2
    · exact hnw h2
  have hlen : (s.b2.erase tok).length + 1 = s.b2.length :=
    List.length_erase_add_one htok
  have hS1 : InvCore { s with
      p := (if s.p > max 1 (s.longterm_count / s.b2.length)
        then s.p - max 1 (s.longterm_count / s.b2.length) else 0)
      slab := amodify s.slab tok
        (fun e => { e with is_history := false, is_reference := false })
      longterm_count := s.longterm_count + 1
      b2 := s.b2.erase tok
      t1 := s.t1 ++ [tok] } := by
    have hperm : ({ s with
        p := (if s.p > max 1 (s.longterm_count / s.b2.length)
          then s.p - max 1 (s.longterm_count / s.b2.length) else 0)
        slab := amodify s.slab tok
          (fun e => { e with is_history := false, is_reference := false })
        longterm_count := s.longterm_count + 1
        b2 := s.b2.erase tok
        t1 := s.t1 ++ [tok] } : CartCache K V).dir.Perm s.dir := by
      rw [List.perm_iff_count]
      intro a
      simp only [CartCache.dir, herase]
      simp only [hb2eq, List.count_append, List.count_cons, List.count_nil]
      split_ifs <;> omega
    refine ⟨?_, hc.map_nd, ?_, ?_, ?_, ?_, ?_, ?_, ?_, ?_, ?_, ?_, ?_, ?_,
      hc.c_eq⟩
    · show ((amodify s.slab tok _).map Prod.fst).Nodup
      rw [amodify_map_fst]
      exact hc.slab_nd
    · exact amodify_map_sound hc.map_sound tok _ (fun _ => rfl)
    · exact amodify_map_complete hc.map_complete tok _ (fun _ => rfl)
    · exact hperm.nodup_iff.mpr hc.dir_nd
    · intro t
      rw [hperm.mem_iff]
      show (alookup (amodify s.slab tok _) t).isSome = true ↔ t ∈ s.dir
      rw [alookup_amodify_isSome]
      exact hc.cover t
    · intro t ht
      rcases List.mem_append.mp ht with h2 | h2
      · exact exists_lookup_amodify_ne (fun hteq => hn1 (by rwa [hteq] at h2))
          (hc.t1_ok t h2)
      · simp at h2
        subst h2
        refine ⟨{ e with is_history := false, is_reference := false }, ?_, rfl⟩
        rw [alookup_amodify, if_pos rfl, he]
        rfl
    · intro t ht
      exact exists_lookup_amodify_ne (fun hteq => hn2 (by rwa [hteq] at ht))
        (hc.t2_ok t ht)
    · intro t ht
      exact exists_lookup_amodify_ne (fun hteq => hnb1 (by rwa [hteq] at ht))
        (hc.b1_ok t ht)
    · intro t ht
      exact exists_lookup_amodify_ne (hne_erase t ht)
        (hc.b2_ok t (List.mem_of_mem_erase ht))
    · show s.shortterm_count = stCount _
      have hcnt := countP_amodify hc.slab_nd he
        (fun e => { e with is_history := false, is_reference := false })
        (fun pr => !pr.2.is_history && !pr.2.is_longterm)
      rw [hc.st_eq]
      simp [hh, hl, stCount] at hcnt ⊢
      omega
    · show s.longterm_count + 1 = ltCount _
      have hcnt := countP_amodify hc.slab_nd he
        (fun e => { e with is_history := false, is_reference := false })
        (fun pr => !pr.2.is_history && pr.2.is_longterm)
      rw [hc.lt_eq]
      simp [hh, hl, ltCount] at hcnt ⊢
      omega
    · show (if s.p > max 1 (s.longterm_count / s.b2.length)
          then s.p - max 1 (s.longterm_count / s.b2.length) else 0) ≤ s.c
      have := hc.p_le
      split_ifs <;> omega
    · show (s.t1 ++ [tok]).length + s.t2.length ≤ max 1 s.c
      simp only [List.length_append, List.length_cons, List.length_nil]
      omega
  simp only [promote_from_b2]
  split
  · exact ⟨invcore_q _ _ hS1, hlen, rfl, rfl, rfl, rfl⟩
  · exact ⟨hS1, hlen, rfl, rfl, rfl, rfl⟩

theorem inv_get (s : CartCache K V) (k : K) (h : Inv s) :
    Inv (CartCache.get s k).2 ∧ (CartCache.get s k).2.capacity = s.capacity := by
  obtain ⟨hc, hg⟩ := h
  cases hmk : alookup s.map k with
  | none =>
      simp only [CartCache.get, hmk]
      exact ⟨⟨hc, hg⟩, by trivial⟩
  | some tok =>
      simp only [CartCache.get, hmk]
      exact ⟨⟨invcore_amodify_keep s tok _ (fun _ => rfl) (fun _ => rfl)
        (fun _ => rfl) hc, hg⟩, by trivial⟩

theorem inv_get_mut (s : CartCache K V) (k : K) (h : Inv s) :
    Inv (CartCache.get_mut s k).2 ∧
    (CartCache.get_mut s k).2.capacity = s.capacity := by
  obtain ⟨hc, hg⟩ := h
  cases hmk : alookup s.map k with
  | none =>
      simp only [CartCache.get_mut, hmk]
      exact ⟨⟨hc, hg⟩, by trivial⟩
  | some tok =>
      simp only [CartCache.get_mut, hmk]
      exact ⟨⟨invcore_amodify_keep s tok _ (fun _ => rfl) (fun _ => rfl)
        (fun _ => rfl) hc, hg⟩, by trivial⟩

theorem inv_clear (s : CartCache K V) (h : Inv s) :
    Inv (CartCache.clear s) ∧ (CartCache.clear s).capacity = s.capacity := by
  exact ⟨⟨invcore_clear s h.1.c_eq, Nat.zero_le _⟩, rfl⟩

/-- A ghost entry that is not long-term lives in b1. -/
theorem ghost_in_b1 (s : CartCache K V) (hc : InvCore s) {tok : Token}
    {e : Entry K V} (he : alookup s.slab tok = some e)
    (hh : e.is_history = true) (hl : e.is_longterm = false) : tok ∈ s.b1 := by
  have htokdir : tok ∈ s.dir := (hc.cover tok).mp (by rw [he]; rfl)
  simp only [CartCache.dir, List.mem_append] at htokdir
  rcases htokdir with ((h1 | h2) | h3) | h4
  · obtain ⟨e', he', hh'⟩ := hc.t1_ok tok h1
    rw [he] at he'
    cases he'
    rw [hh'] at hh
    cases hh
  · obtain ⟨e', he', hh', _⟩ := hc.t2_ok tok h2
    rw [he] at he'
    cases he'
    rw [hh'] at hh
    cases hh
  · exact h3
  · obtain ⟨e', he', _, hl'⟩ := hc.b2_ok tok h4
    rw [he] at he'
    cases he'
    rw [hl'] at hl
    cases hl

/-- A ghost entry that is long-term lives in b2. -/
theorem ghost_in_b2 (s : CartCache K V) (hc : InvCore s) {tok : Token}
    {e : Entry K V} (he : alookup s.slab tok = some e)
    (hh : e.is_history = true) (hl : e.is_longterm = true) : tok ∈ s.b2 := by
  have htokdir : tok ∈ s.dir := (hc.cover tok).mp (by rw [he]; rfl)
  simp only [CartCache.dir, List.mem_append] at htokdir
  rcases htokdir with ((h1 | h2) | h3) | h4
  · obtain ⟨e', he', hh'⟩ := hc.t1_ok tok h1
    rw [he] at he'
    cases he'
    rw [hh'] at hh
    cases hh
  · obtain ⟨e', he', hh', _⟩ := hc.t2_ok tok h2
    rw [he] at he'
    cases he'
    rw [hh'] at hh
    cases hh
  · obtain ⟨e', he', _, hl'⟩ := hc.b1_ok tok h3
    rw [he] at he'
    cases he'
    rw [hl'] at hl
    cases hl
  · exact h4

theorem inv_insert (s : CartCache K V) (k : K) (v : V) (h : Inv s) :
    Inv (CartCache.insert s k v).2 ∧
    (CartCache.insert s k v).2.capacity = s.capacity := by
  obtain ⟨hc, hg⟩ := h
  cases hmk : alookup s.map k with
  | none =>
      have hev := evict_spec s false ⟨hc, hg⟩
      have hroom : (evict_if_full s false).t1.length
          + (evict_if_full s false).t2.length
          < max 1 (evict_if_full s false).c := by
        rw [hev.c_eq]
        exact hev.res_lt
      have habs : alookup (evict_if_full s false).map k = none := hev.absent k hmk
      obtain ⟨hcore, hb1, hb2, hceq, hcapeq⟩ :=
        insert_new_spec (evict_if_full s false) k v hev.core habs hroom
      simp only [CartCache.insert, hmk]
      refine ⟨⟨hcore, ?_⟩, ?_⟩
      · rw [hb1, hb2, hceq, hev.c_eq]
        exact hev.ghost_new rfl
      · rw [hcapeq, hev.cap_eq]
  | some tok =>
      obtain ⟨e, he, hkey⟩ := hc.map_sound k tok hmk
      have hse : slabGet s.slab tok = e := slabGet_eq he
      by_cases hhist : e.is_history = false
      · simp only [CartCache.insert, hmk, hse, if_pos hhist]
        exact ⟨⟨invcore_amodify_keep s tok _ (fun _ => rfl) (fun _ => rfl)
          (fun _ => rfl) hc, hg⟩, by trivial⟩
      · have hhist2 : e.is_history = true := by
          revert hhist
          cases e.is_history <;> simp
        have htokdir : tok ∈ s.dir := (hc.cover tok).mp (by rw [he]; rfl)
        have hev := evict_spec s true ⟨hc, hg⟩
        obtain ⟨hle, ⟨l1, hl1⟩, ⟨l2, hl2⟩⟩ := hev.ghost_old rfl
        have hroom : (evict_if_full s true).t1.length
            + (evict_if_full s true).t2.length
            < max 1 (evict_if_full s true).c := by
          rw [hev.c_eq]
          exact hev.res_lt
        by_cases hlt : e.is_longterm = false
        · have htokb1 : tok ∈ s.b1 := by
            simp only [CartCache.dir, List.mem_append] at htokdir
            rcases htokdir with ((h1 | h2) | h3) | h4
            · obtain ⟨e', he', hh'⟩ := hc.t1_ok tok h1
              rw [he] at he'
              cases he'
              rw [hh'] at hhist2
              cases hhist2
            · obtain ⟨e', he', hh', _⟩ := hc.t2_ok tok h2
              rw [he] at he'
              cases he'
              rw [hh'] at hhist2
              cases hhist2
            · exact h3
            · obtain ⟨e', he', _, hl'⟩ := hc.b2_ok tok h4
              rw [he] at he'
              cases he'
              rw [hl'] at hlt
              cases hlt
          have htokb1' : tok ∈ (evict_if_full s true).b1 := by
            rw [hl1]
            exact List.mem_append_left _ htokb1
          obtain ⟨hcore, hblen, hb2eq, hceq, hcapeq, hmapeq⟩ :=
            promote_b1_spec (evict_if_full s true) tok hev.core htokb1' hroom
          simp only [CartCache.insert, hmk, hse, hhist2, hlt]
          simp only [Bool.true_eq_false, if_false, if_true]
          refine ⟨⟨hcore, ?_⟩, ?_⟩
          · have hgb : (evict_if_full s true).b1.length
                + (evict_if_full s true).b2.length
                ≤ s.b1.length + s.b2.length + 1 := hle
            rw [hb2eq, hceq, hev.c_eq]
            omega
          · rw [hcapeq, hev.cap_eq]
        · have hlt2 : e.is_longterm = true := by
            revert hlt
            cases e.is_longterm <;> simp
          have htokb2 : tok ∈ s.b2 := by
            simp only [CartCache.dir, List.mem_append] at htokdir
            rcases htokdir with ((h1 | h2) | h3) | h4
            · obtain ⟨e', he', hh'⟩ := hc.t1_ok tok h1
              rw [he] at he'
              cases he'
              rw [hh'] at hhist2
              cases hhist2
            · obtain ⟨e', he', hh', _⟩ := hc.t2_ok tok h2
              rw [he] at he'
              cases he'
              rw [hh'] at hhist2
              cases hhist2
            · obtain ⟨e', he', _, hl'⟩ := hc.b1_ok tok h3
              rw [he] at he'
              cases he'
              rw [hl'] at hlt2
              cases hlt2
            · exact h4
          have htokb2' : tok ∈ (evict_if_full s true).b2 := by
            rw [hl2]
            exact List.mem_append_left _ htokb2
          obtain ⟨hcore, hblen, hb1eq, hceq, hcapeq, hmapeq⟩ :=
            promote_b2_spec (evict_if_full s true) tok hev.core htokb2' hroom
          simp only [CartCache.insert, hmk, hse, hhist2, hlt2]
          simp only [Bool.true_eq_false, if_false, if_true]
          refine ⟨⟨hcore, ?_⟩, ?_⟩
          · have hgb : (evict_if_full s true).b1.length
                + (evict_if_full s true).b2.length
                ≤ s.b1.length + s.b2.length + 1 := hle
            rw [hb1eq, hceq, hev.c_eq]
            omega
          · rw [hcapeq, hev.cap_eq]

theorem inv_step (s : CartCache K V) (op : Op K V) (h : Inv s) :
    Inv (step s op) ∧ (step s op).capacity = s.capacity := by
  cases op with
  | insert k v => exact inv_insert s k v h
  | get k => exact inv_get s k h
  | get_mut k => exact inv_get_mut s k h
  | clear => exact inv_clear s h

theorem inv_run : ∀ (ops : List (Op K V)) (s : CartCache K V), Inv s →
    Inv (run s ops) ∧ (run s ops).capacity = s.capacity := by
  intro ops
  induction ops with
  | nil => intro s h; exact ⟨h, rfl⟩
  | cons op ops ih =>
      intro s h
      obtain ⟨h1, h2⟩ := inv_step s op h
      obtain ⟨h3, h4⟩ := ih (step s op) h1
      exact ⟨h3, h4.trans h2⟩

theorem inv_mk (capacity : Nat) : Inv (mkCartCache K V capacity) :=
  ⟨invcore_mk K V capacity, Nat.zero_le _⟩

/-- Soundness of the invariant over all reachable states. -/
theorem reachable_inv (capacity : Nat) (s : CartCache K V)
    (hr : Reachable capacity s) : Inv s ∧ s.capacity = capacity := by
  obtain ⟨ops, hops⟩ := hr
  rw [← hops]
  exact inv_run ops (mkCartCache K V capacity) (inv_mk capacity)

/-- C1: the claim says get (and get_mut) return None for a ghost key.
The code does not test is_history in get: at capacity 2, after
inserting keys 1 and 2, key 1 is a ghost (its handle 0 is in B1 with
is_history set), yet get 1 returns the stale value some 10, get_mut 1
does the same, and get sets the ghost's reference bit. -/
theorem c1_get_returns_ghost_value :
    ((run (mkCartCache Nat Nat 2) [Op.insert 1 10, Op.insert 2 20]).map.length
        = 2) ∧
    (alookup (run (mkCartCache Nat Nat 2)
        [Op.insert 1 10, Op.insert 2 20]).map 1 = some 0) ∧
    ((slabGet (run (mkCartCache Nat Nat 2)
        [Op.insert 1 10, Op.insert 2 20]).slab 0).is_history = true) ∧
    (0 ∈ (run (mkCartCache Nat Nat 2) [Op.insert 1 10, Op.insert 2 20]).b1) ∧
    ((CartCache.get (run (mkCartCache Nat Nat 2)
        [Op.insert 1 10, Op.insert 2 20]) 1).1 = some 10) ∧
    ((CartCache.get_mut (run (mkCartCache Nat Nat 2)
        [Op.insert 1 10, Op.insert 2 20]) 1).1 = some 10) ∧
    ((slabGet (CartCache.get (run (mkCartCache Nat Nat 2)
        [Op.insert 1 10, Op.insert 2 20]) 1).2.slab 0).is_reference = true) := by
  decide

/-- C2: the claim says that re-inserting a ghost key with a new value
makes get return the new value. The code's ghost path
(promote_from_b1 / promote_from_b2) never writes the inserted value: at
capacity 2, key 1 holding 10 becomes a ghost, insert 1 99 returns false
and makes key 1 resident again, but get 1 then returns the old value
some 10, not some 99. -/
theorem c2_promote_discards_new_value :
    ((slabGet (run (mkCartCache Nat Nat 2)
        [Op.insert 1 10, Op.insert 2 20]).slab 0).is_history = true) ∧
    ((CartCache.insert (run (mkCartCache Nat Nat 2)
        [Op.insert 1 10, Op.insert 2 20]) 1 99).1 = false) ∧
    ((slabGet (CartCache.insert (run (mkCartCache Nat Nat 2)
        [Op.insert 1 10, Op.insert 2 20]) 1 99).2.slab 0).is_history = false) ∧
    (0 ∈ (CartCache.insert (run (mkCartCache Nat Nat 2)
        [Op.insert 1 10, Op.insert 2 20]) 1 99).2.t1) ∧
    ((CartCache.get (CartCache.insert (run (mkCartCache Nat Nat 2)
        [Op.insert 1 10, Op.insert 2 20]) 1 99).2 1).1 = some 10) := by
  decide

/-- C3 (counterexample): the claim as stated fails at capacity 1, which
new accepts: after a single insert the resident set has one entry while
capacity / 2 = 0. -/
theorem c3_resident_bound_counterexample :
    ¬ ((run (mkCartCache Nat Nat 1) [Op.insert 1 10]).t1.length
        + (run (mkCartCache Nat Nat 1) [Op.insert 1 10]).t2.length
        ≤ 1 / 2) := by
  decide

/-- C3 (amended): for every capacity of at least 2 accepted by new and
every finite sequence of insert/get/get_mut/clear operations, the
resident-set bound t1.len() + t2.len() <= capacity / 2 holds after
every operation. -/
theorem c3_resident_bound (K V : Type) [DecidableEq K] [Inhabited K]
    [Inhabited V] (capacity : Nat) (s : CartCache K V)
    (hcap : 2 ≤ capacity) (hr : Reachable capacity s) :
    s.t1.length + s.t2.length ≤ capacity / 2 := by
  obtain ⟨⟨hcore, _⟩, hcapeq⟩ := reachable_inv capacity s hr
  have h1 := hcore.res_bound
  have h2 := hcore.c_eq
  rw [hcapeq] at h2
  rw [h2] at h1
  have h3 : 1 ≤ capacity / 2 := by omega
  rw [Nat.max_eq_right h3] at h1
  exact h1

/-- C3 (witness): the amended bound evaluated at capacity 2 after two
inserts. -/
theorem c3_resident_bound_witness :
    (run (mkCartCache Nat Nat 2) [Op.insert 1 10, Op.insert 2 20]).t1.length
      + (run (mkCartCache Nat Nat 2)
          [Op.insert 1 10, Op.insert 2 20]).t2.length ≤ 2 / 2 :=
  c3_resident_bound Nat Nat 2 _ (by decide)
    ⟨[Op.insert 1 10, Op.insert 2 20], rfl⟩

/-- C4: for every capacity accepted by new and every reachable state
(in particular immediately after every insert), the total directory is
bounded by the capacity and the ghost part by capacity / 2 + 1. -/
theorem c4_directory_bound (K V : Type) [DecidableEq K] [Inhabited K]
    [Inhabited V] (capacity : Nat) (s : CartCache K V)
    (hcap : 1 ≤ capacity) (hr : Reachable capacity s) :
    s.t1.length + s.t2.length + s.b1.length + s.b2.length ≤ capacity ∧
    s.b1.length + s.b2.length ≤ capacity / 2 + 1 := by
  obtain ⟨⟨hcore, hg⟩, hcapeq⟩ := reachable_inv capacity s hr
  have h1 := hcore.res_bound
  have h2 := hcore.c_eq
  rw [hcapeq] at h2
  rw [h2] at h1 hg
  omega

/-- C4 (witness): the directory bound evaluated at capacity 2 after
three inserts (one entry resident, one ghost). -/
theorem c4_directory_bound_witness :
    (run (mkCartCache Nat Nat 2)
        [Op.insert 1 10, Op.insert 2 20, Op.insert 3 30]).t1.length
      + (run (mkCartCache Nat Nat 2)
          [Op.insert 1 10, Op.insert 2 20, Op.insert 3 30]).t2.length
      + (run (mkCartCache Nat Nat 2)
          [Op.insert 1 10, Op.insert 2 20, Op.insert 3 30]).b1.length
      + (run (mkCartCache Nat Nat 2)
          [Op.insert 1 10, Op.insert 2 20, Op.insert 3 30]).b2.length ≤ 2 ∧
    (run (mkCartCache Nat Nat 2)
        [Op.insert 1 10, Op.insert 2 20, Op.insert 3 30]).b1.length
      + (run (mkCartCache Nat Nat 2)
          [Op.insert 1 10, Op.insert 2 20, Op.insert 3 30]).b2.length
      ≤ 2 / 2 + 1 :=
  c4_directory_bound Nat Nat 2 _ (by decide)
    ⟨[Op.insert 1 10, Op.insert 2 20, Op.insert 3 30], rfl⟩

/-- C5: inserting a key with a resident (non-ghost) entry returns true,
sets the reference bit, overwrites the value, and changes nothing else:
all four lists, the key index, len, the adaptive parameters, both class
counters and both cumulative counters are untouched, so no replacement
sweep can have run. -/
theorem c5_update_in_place (K V : Type) [DecidableEq K] [Inhabited K]
    [Inhabited V] (s : CartCache K V) (k : K) (v : V) (tok : Token)
    (e : Entry K V) (hmk : alookup s.map k = some tok)
    (he : alookup s.slab tok = some e) (hres : e.is_history = false) :
    (CartCache.insert s k v).1 = true ∧
    (CartCache.insert s k v).2.t1 = s.t1 ∧
    (CartCache.insert s k v).2.t2 = s.t2 ∧
    (CartCache.insert s k v).2.b1 = s.b1 ∧
    (CartCache.insert s k v).2.b2 = s.b2 ∧
    (CartCache.insert s k v).2.map = s.map ∧
    (CartCache.insert s k v).2.len = s.len ∧
    (CartCache.insert s k v).2.p = s.p ∧
    (CartCache.insert s k v).2.q = s.q ∧
    (CartCache.insert s k v).2.shortterm_count = s.shortterm_count ∧
    (CartCache.insert s k v).2.longterm_count = s.longterm_count ∧
    (CartCache.insert s k v).2.inserted = s.inserted ∧
    (CartCache.insert s k v).2.evicted = s.evicted ∧
    alookup (CartCache.insert s k v).2.slab tok =
      some { e with is_reference := true, value := v } := by
  have hse : slabGet s.slab tok = e := slabGet_eq he
  have hins : CartCache.insert s k v = (true, { s with
      slab := amodify s.slab tok
        (fun e => { e with is_reference := true, value := v }) }) := by
    simp only [CartCache.insert, hmk, hse, if_pos hres]
  rw [hins]
  refine ⟨rfl, rfl, rfl, rfl, rfl, rfl, rfl, rfl, rfl, rfl, rfl, rfl, rfl, ?_⟩
  show alookup (amodify s.slab tok
    (fun e => { e with is_reference := true, value := v })) tok = _
  rw [alookup_amodify, if_pos rfl, he]
  rfl

/-- C5 (witness): the in-place update applied at a concrete resident
entry. -/
theorem c5_update_in_place_witness :
    (CartCache.insert (run (mkCartCache Nat Nat 4) [Op.insert 1 10]) 1 99).1
      = true :=
  (c5_update_in_place Nat Nat (run (mkCartCache Nat Nat 4) [Op.insert 1 10])
    1 99 0 ⟨1, 10, false, false, false⟩ (by decide) (by decide) rfl).1

/-- C6: the end-to-end scenario at capacity 4 (c = 2): keys 1 (A) and 2
(B) land resident in T1; inserting 3 (C) demotes A into B1 as a ghost;
get 2 sets B's reference bit; inserting 4 (D) triggers another
replacement whose demoted victim is C, not B — B stays resident in T1
(promoted to long-term by its second chance). -/
theorem c6_end_to_end_scenario :
    ((run (mkCartCache Nat Nat 4) [Op.insert 1 10, Op.insert 2 20]).t1
        = [0, 1]) ∧
    ((slabGet (run (mkCartCache Nat Nat 4)
        [Op.insert 1 10, Op.insert 2 20]).slab 0).is_history = false) ∧
    ((slabGet (run (mkCartCache Nat Nat 4)
        [Op.insert 1 10, Op.insert 2 20]).slab 1).is_history = false) ∧
    (alookup (run (mkCartCache Nat Nat 4) [Op.insert 1 10, Op.insert 2 20,
        Op.insert 3 30]).map 1 = some 0) ∧
    ((run (mkCartCache Nat Nat 4) [Op.insert 1 10, Op.insert 2 20,
        Op.insert 3 30]).b1 = [0]) ∧
    ((slabGet (run (mkCartCache Nat Nat 4) [Op.insert 1 10, Op.insert 2 20,
        Op.insert 3 30]).slab 0).is_history = true) ∧
    ((slabGet (run (mkCartCache Nat Nat 4) [Op.insert 1 10, Op.insert 2 20,
        Op.insert 3 30, Op.get 2]).slab 1).is_reference = true) ∧
    ((slabGet (run (mkCartCache Nat Nat 4) [Op.insert 1 10, Op.insert 2 20,
        Op.insert 3 30, Op.get 2, Op.insert 4 40]).slab 1).is_history
        = false) ∧
    (1 ∈ (run (mkCartCache Nat Nat 4) [Op.insert 1 10, Op.insert 2 20,
        Op.insert 3 30, Op.get 2, Op.insert 4 40]).t1) ∧
    (1 ∉ (run (mkCartCache Nat Nat 4) [Op.insert 1 10, Op.insert 2 20,
        Op.insert 3 30, Op.get 2, Op.insert 4 40]).b1) ∧
    (1 ∉ (run (mkCartCache Nat Nat 4) [Op.insert 1 10, Op.insert 2 20,
        Op.insert 3 30, Op.get 2, Op.insert 4 40]).b2) ∧
    (alookup (run (mkCartCache Nat Nat 4) [Op.insert 1 10, Op.insert 2 20,
        Op.insert 3 30, Op.get 2, Op.insert 4 40]).map 3 = some 2) ∧
    ((slabGet (run (mkCartCache Nat Nat 4) [Op.insert 1 10, Op.insert 2 20,
        Op.insert 3 30, Op.get 2, Op.insert 4 40]).slab 2).is_history
        = true) ∧
    ((run (mkCartCache Nat Nat 4) [Op.insert 1 10, Op.insert 2 20,
        Op.insert 3 30, Op.get 2, Op.insert 4 40]).b1 = [0, 2]) := by
  decide

/-- C7: after every public operation, shortterm_count equals the number
of resident (is_history unset) entries with is_longterm unset, and
longterm_count the number of resident entries with is_longterm set;
ghosts count in neither. -/
theorem c7_counter_sync (K V : Type) [DecidableEq K] [Inhabited K]
    [Inhabited V] (capacity : Nat) (s : CartCache K V)
    (hcap : 1 ≤ capacity) (hr : Reachable capacity s) :
    s.shortterm_count
      = s.slab.countP (fun pr => !pr.2.is_history && !pr.2.is_longterm) ∧
    s.longterm_count
      = s.slab.countP (fun pr => !pr.2.is_history && pr.2.is_longterm) := by
  obtain ⟨⟨hcore, _⟩, _⟩ := reachable_inv capacity s hr
  exact ⟨hcore.st_eq, hcore.lt_eq⟩

/-- C7 (witness): the counters evaluated after a concrete sequence with
a long-term promotion and a ghost. -/
theorem c7_counter_sync_witness :
    (run (mkCartCache Nat Nat 4) [Op.insert 1 10, Op.insert 2 20,
        Op.insert 3 30, Op.get 2, Op.insert 4 40]).shortterm_count
      = (run (mkCartCache Nat Nat 4) [Op.insert 1 10, Op.insert 2 20,
          Op.insert 3 30, Op.get 2, Op.insert 4 40]).slab.countP
          (fun pr => !pr.2.is_history && !pr.2.is_longterm) :=
  (c7_counter_sync Nat Nat 4 _ (by decide)
    ⟨[Op.insert 1 10, Op.insert 2 20, Op.insert 3 30, Op.get 2,
      Op.insert 4 40], rfl⟩).1

/-- C8: clear resets the full state: it equals a freshly constructed
cache of the same capacity, so len, inserted, evicted, all four lists,
p, q and both class counters are zero and any subsequent insert behaves
exactly as on a fresh cache. -/
theorem c8_clear_resets (K V : Type) [DecidableEq K] [Inhabited K]
    [Inhabited V] (capacity : Nat) (s : CartCache K V)
    (hcap : 1 ≤ capacity) (hr : Reachable capacity s) :
    CartCache.clear s = mkCartCache K V capacity ∧
    (CartCache.clear s).len = 0 ∧
    (CartCache.clear s).inserted = 0 ∧
    (CartCache.clear s).evicted = 0 ∧
    (CartCache.clear s).t1 = [] ∧
    (CartCache.clear s).t2 = [] ∧
    (CartCache.clear s).b1 = [] ∧
    (CartCache.clear s).b2 = [] ∧
    (CartCache.clear s).p = 0 ∧
    (CartCache.clear s).q = 0 ∧
    (CartCache.clear s).shortterm_count = 0 ∧
    (CartCache.clear s).longterm_count = 0 ∧
    (∀ (k : K) (v : V), CartCache.insert (CartCache.clear s) k v
        = CartCache.insert (mkCartCache K V capacity) k v) := by
  obtain ⟨⟨hcore, _⟩, hcapeq⟩ := reachable_inv capacity s hr
  have hceq := hcore.c_eq
  have hclear : CartCache.clear s = mkCartCache K V capacity := by
    cases s
    subst hcapeq
    simp only [mkCartCache] at hceq ⊢
    simp [CartCache.clear, hceq]
  refine ⟨hclear, rfl, rfl, rfl, rfl, rfl, rfl, rfl, rfl, rfl, rfl, rfl, ?_⟩
  intro k v
  rw [hclear]

/-- C8 (witness): clear applied to a concrete reachable state of
capacity 2. -/
theorem c8_clear_resets_witness :
    CartCache.clear (run (mkCartCache Nat Nat 2)
        [Op.insert 1 10, Op.insert 2 20]) = mkCartCache Nat Nat 2 :=
  (c8_clear_resets Nat Nat 2 _ (by decide)
    ⟨[Op.insert 1 10, Op.insert 2 20], rfl⟩).1

/-- C9: new rejects exactly capacity 0 with a configuration error, and
for every positive capacity returns Ok with capacity() equal to the
argument, c = capacity / 2, all lists and the index empty and every
counter and adaptive parameter zero. -/
theorem c9_new_validation (K V : Type) [DecidableEq K] [Inhabited K]
    [Inhabited V] :
    CartCache.new K V 0 = Except.error "Cache length cannot be zero" ∧
    (∀ capacity : Nat, 1 ≤ capacity →
      CartCache.new K V capacity = Except.ok (mkCartCache K V capacity) ∧
      (mkCartCache K V capacity).capacity = capacity ∧
      (mkCartCache K V capacity).c = capacity / 2 ∧
      (mkCartCache K V capacity).slab = [] ∧
      (mkCartCache K V capacity).map = [] ∧
      (mkCartCache K V capacity).t1 = [] ∧
      (mkCartCache K V capacity).t2 = [] ∧
      (mkCartCache K V capacity).b1 = [] ∧
      (mkCartCache K V capacity).b2 = [] ∧
      (mkCartCache K V capacity).p = 0 ∧
      (mkCartCache K V capacity).q = 0 ∧
      (mkCartCache K V capacity).shortterm_count = 0 ∧
      (mkCartCache K V capacity).longterm_count = 0 ∧
      (mkCartCache K V capacity).inserted = 0 ∧
      (mkCartCache K V capacity).evicted = 0) := by
  refine ⟨rfl, ?_⟩
  intro capacity hcap
  have hne : ¬ capacity ≤ 0 := by omega
  exact ⟨by simp [CartCache.new, hne], rfl, rfl, rfl, rfl, rfl, rfl, rfl, rfl,
    rfl, rfl, rfl, rfl, rfl, rfl⟩

/-- C9 (witness): construction evaluated at capacity 5. -/
theorem c9_new_validation_witness :
    CartCache.new Nat Nat 5 = Except.ok (mkCartCache Nat Nat 5) :=
  ((c9_new_validation Nat Nat).2 5 (by decide)).1

/-- C10: in every reachable state, when insert dispatches a ghost key
to promote_from_b1 (is_longterm unset) the ghost is still in b1 after
evict_if_full(true) and b1 is non-empty at the point
shortterm_count / b1.len() is computed; symmetrically for
promote_from_b2 and b2, so neither adaptive division divides by
zero. -/
theorem c10_promote_divisor_nonzero (K V : Type) [DecidableEq K] [Inhabited K]
    [Inhabited V] (capacity : Nat) (s : CartCache K V) (k : K) (tok : Token)
    (e : Entry K V) (hcap : 1 ≤ capacity) (hr : Reachable capacity s)
    (hmk : alookup s.map k = some tok) (he : alookup s.slab tok = some e)
    (hh : e.is_history = true) :
    (e.is_longterm = false →
      tok ∈ (evict_if_full s true).b1 ∧
      (evict_if_full s true).b1.length ≠ 0) ∧
    (e.is_longterm = true →
      tok ∈ (evict_if_full s true).b2 ∧
      (evict_if_full s true).b2.length ≠ 0) := by
  obtain ⟨⟨hcore, hg⟩, _⟩ := reachable_inv capacity s hr
  have hev := evict_spec s true ⟨hcore, hg⟩
  obtain ⟨_, ⟨l1, hl1⟩, ⟨l2, hl2⟩⟩ := hev.ghost_old rfl
  constructor
  · intro hl
    have htokb1 : tok ∈ s.b1 := ghost_in_b1 s hcore he hh hl
    have hmem : tok ∈ (evict_if_full s true).b1 := by
      rw [hl1]
      exact List.mem_append_left _ htokb1
    exact ⟨hmem, by
      have := List.length_pos_of_mem hmem
      omega⟩
  · intro hl
    have htokb2 : tok ∈ s.b2 := ghost_in_b2 s hcore he hh hl
    have hmem : tok ∈ (evict_if_full s true).b2 := by
      rw [hl2]
      exact List.mem_append_left _ htokb2
    exact ⟨hmem, by
      have := List.length_pos_of_mem hmem
      omega⟩

/-- C10 (witness): the b1 branch evaluated at a concrete reachable
state with a ghost key. -/
theorem c10_promote_divisor_nonzero_witness :
    0 ∈ (evict_if_full (run (mkCartCache Nat Nat 2)
        [Op.insert 1 10, Op.insert 2 20]) true).b1 ∧
    (evict_if_full (run (mkCartCache Nat Nat 2)
        [Op.insert 1 10, Op.insert 2 20]) true).b1.length ≠ 0 :=
  (c10_promote_divisor_nonzero Nat Nat 2
    (run (mkCartCache Nat Nat 2) [Op.insert 1 10, Op.insert 2 20])
    1 0 ⟨1, 10, true, false, false⟩ (by decide)
    ⟨[Op.insert 1 10, Op.insert 2 20], rfl⟩ (by decide) (by decide) rfl).1 rfl

end CartVerify
